import Mathlib

/-!
# Verification of the `simple-mocha-replacement` test runner core

Shallow embedding of `src/index.ts`. The run phase (`runSuite`) operates on
a read-only tree of suites and tests, so it is embedded as a pure recursive
function over an inductive tree. Actions (test bodies and hooks) are modelled
as records carrying an identifier and a success flag; executing an action
appends an event to a trace, and a throwing/rejecting action is modelled as
`Option Nat` error propagation (the error carries the failing action's id),
matching JavaScript exception propagation through the sequential `await`s.

The build phase (`addSuite`, `addTest`, hook registration, the
`currentSuite` cursor) mutates a shared object graph; it is embedded
arena-style: suites and tests live in append-only lists indexed by creation
order, and `parent` / `suite` back-references are indices into those lists.
-/

namespace SMR

/-- A hook or test body: `id` identifies the callable (so that traces record
which action ran), `ok` tells whether it completes normally (`true`) or
throws/rejects (`false`). -/
structure Action where
  id : Nat
  ok : Bool
  deriving Repr, DecidableEq

/-- Observable events of a run, in order: an action being invoked
(`call`), the `dispatchReporters \x7b type: 'beforeHookError' \x7d` call, and the
`process.stdout.write('.')` after a test body completes. -/
inductive Ev where
  | call (id : Nat)
  | beforeHookError
  | dot
  deriving Repr, DecidableEq

/-- The result of executing a code fragment: the trace of events it emitted,
and `some e` when it terminated by throwing (the exception `e` being the id
of the action that failed), `none` when it returned normally. -/
abbrev RunResult := List Ev × Option Nat

mutual

/-- A node of the declared tree: either a `Test` (name, fn, only, skip) or a
`Suite` (name, only, skip, contents, before, after, beforeEach, afterEach),
mirroring the `Test` and `Suite` types of `src/index.ts`. The root suite has
`name = none`. -/
inductive Node where
  | test (name : String) (fn : Action) (only : Bool) (skip : Bool) : Node
  | suite (name : Option String) (only : Bool) (skip : Bool)
      (contents : NodeList)
      (before after beforeEachH afterEachH : List Action) : Node

/-- `Suite.contents`: an ordered sequence of child nodes. -/
inductive NodeList where
  | nil : NodeList
  | cons (c : Node) (rest : NodeList) : NodeList

end

/-- The `only` flag of a node (shared by `Test` and `Suite`). -/
def Node.onlyFlag : Node → Bool
  | .test _ _ o _ => o
  | .suite _ o _ _ _ _ _ _ => o

/-- The `skip` flag of a node (shared by `Test` and `Suite`). -/
def Node.skipFlag : Node → Bool
  | .test _ _ _ s => s
  | .suite _ _ s _ _ _ _ _ => s

/-- `content.name` as read in `runSuite`: a `Test` always has a name, a
`Suite` may not (the root). -/
def Node.nodeName : Node → Option String
  | .test n _ _ _ => some n
  | .suite n _ _ _ _ _ _ _ => n

/-- `suite.contents.some(content => content.only)`. -/
def NodeList.hasOnly : NodeList → Bool
  | .nil => false
  | .cons c rest => c.onlyFlag || rest.hasOnly

/-- `RunSuiteOpts` of `src/index.ts`: the name path and the hook lists
inherited from ancestor suites. -/
structure RunOpts where
  names : List (Option String)
  beforeEachH : List Action
  afterEachH : List Action
  deriving Repr, DecidableEq

/-- Run a list of actions sequentially with no try/catch around them
(the `beforeEach` / test `afterEach` / suite `after` loops): each action is
invoked in order; the first failing action's exception propagates and the
rest do not run. -/
def runActions : List Action → RunResult
  | [] => ([], none)
  | a :: rest =>
    if a.ok then
      match runActions rest with
      | (t, e) => (Ev.call a.id :: t, e)
    else ([Ev.call a.id], some a.id)

/-- The `suite.before` loop of `runSuite`: each action is awaited inside a
try/catch that dispatches a `beforeHookError` report and rethrows. -/
def runBefore : List Action → RunResult
  | [] => ([], none)
  | a :: rest =>
    if a.ok then
      match runBefore rest with
      | (t, e) => (Ev.call a.id :: t, e)
    else ([Ev.call a.id, Ev.beforeHookError], some a.id)

mutual

/-- `runSuite(suite, opts)` of `src/index.ts`: run the `before` hooks
(aborting with a `beforeHookError` report on failure), compute
`contentsHasOnly` once, process the contents, then run the `after` hooks.
Called only on suite nodes; on a test node it does nothing. -/
def runSuite : Node → RunOpts → RunResult
  | .test _ _ _ _, _ => ([], none)
  | .suite _ _ _ contents before afterH beforeEachH _, opts =>
    match runBefore before with
    | (t, some e) => (t, some e)
    | (t, none) =>
      match runContents contents contents.hasOnly beforeEachH opts with
      | (t2, some e) => (t ++ t2, some e)
      | (t2, none) =>
        match runActions afterH with
        | (t3, e3) => (t ++ (t2 ++ t3), e3)

/-- The `for await (const content of suite.contents)` loop of `runSuite`.
`hasOnly` is the `contentsHasOnly` value computed once for the whole
invocation; `sBE` is the enclosing suite's own `beforeEach` list (used, as in
the source, to extend BOTH inherited hook lists — line 198 of `src/index.ts`
reads `afterEach: [...opts.afterEach, ...suite.beforeEach]`). -/
def runContents : NodeList → Bool → List Action → RunOpts → RunResult
  | .nil, _, _, _ => ([], none)
  | .cons c rest, hasOnly, sBE, opts =>
    if hasOnly && !c.onlyFlag then runContents rest hasOnly sBE opts
    else if c.skipFlag then runContents rest hasOnly sBE opts
    else
      match c with
      | .test _ fn _ _ =>
        match runActions (opts.beforeEachH ++ sBE) with
        | (t, some e) => (t, some e)
        | (t, none) =>
          if fn.ok then
            match runActions (opts.afterEachH ++ sBE) with
            | (t2, some e) => (t ++ (Ev.call fn.id :: Ev.dot :: t2), some e)
            | (t2, none) =>
              match runContents rest hasOnly sBE opts with
              | (t3, e3) => (t ++ (Ev.call fn.id :: Ev.dot :: (t2 ++ t3)), e3)
          else (t ++ [Ev.call fn.id], some fn.id)
      | .suite nm o sk cs b a be ae =>
        match runSuite (.suite nm o sk cs b a be ae)
            ⟨opts.names ++ [nm], opts.beforeEachH ++ sBE, opts.afterEachH ++ sBE⟩ with
        | (t, some e) => (t, some e)
        | (t, none) =>
          match runContents rest hasOnly sBE opts with
          | (t2, e2) => (t ++ t2, e2)

end

/-- `runAllTests` (minus timing): run the root suite with empty inherited
name path and hook lists. -/
def runAllTests (root : Node) : RunResult :=
  runSuite root ⟨[], [], []⟩

/-! ## Build phase: the declaration API over arena-indexed mutable state

JavaScript's mutable object graph is embedded arena-style: suites and tests
are stored in append-only lists, a node's identity is its index (creation
order), and the `parent` / `suite` back-references are indices. -/

/-- The `Test` record of the build phase; `suite` is the index of the owning
suite in the arena. -/
structure TestRec where
  name : String
  fn : Action
  suite : Nat
  only : Bool
  skip : Bool
  deriving Repr, DecidableEq

/-- A reference stored in `Suite.contents`: a child suite or a child test,
by arena index. -/
inductive Entry where
  | suiteRef (i : Nat)
  | testRef (i : Nat)
  deriving Repr, DecidableEq

/-- The `Suite` record of the build phase; `parent` is an arena index
(`none` for the root). -/
structure SuiteRec where
  name : Option String
  parent : Option Nat
  only : Bool
  skip : Bool
  contents : List Entry
  before : List Action
  after : List Action
  beforeEachH : List Action
  afterEachH : List Action
  deriving Repr, DecidableEq

/-- `InternalState` of `src/index.ts`: the suite arena (index 0 is
`rootSuite`), the test arena, and the `currentSuite` cursor. The
`reporters` list is omitted: the only reporter is the no-op
`defaultReporter`, and report occasions are already recorded as `Ev`
events. -/
structure InternalState where
  suites : List SuiteRec
  tests : List TestRec
  currentSuite : Nat
  deriving Repr, DecidableEq

/-- `createSuite()`: all flags false, every sequence empty. -/
def createSuite : SuiteRec :=
  ⟨none, none, false, false, [], [], [], [], []⟩

/-- `createTest(name, fn, suite)`. -/
def createTest (name : String) (fn : Action) (suiteId : Nat) : TestRec :=
  ⟨name, fn, suiteId, false, false⟩

/-- `createState()`: a fresh root suite, cursor at the root. -/
def createState : InternalState :=
  ⟨[createSuite], [], 0⟩

/-- Apply `f` to the suite stored at index `i` (no-op when out of range;
the source never indexes out of range). -/
def updateSuite (suites : List SuiteRec) (i : Nat) (f : SuiteRec → SuiteRec) :
    List SuiteRec :=
  match suites[i]? with
  | none => suites
  | some s => suites.set i (f s)

/-- The `while (current) \x7b current.only = true; current = current.parent; \x7d`
loop of `markAncestorsAndSelfOnly`, with explicit fuel standing in for the
unbounded loop: each step sets `only := true` at the current index and moves
to its parent. In every reachable state parent indices strictly decrease, so
fuel `suites.length` is never exhausted (proved below). -/
def markFrom : List SuiteRec → Nat → Nat → List SuiteRec
  | suites, 0, _ => suites
  | suites, fuel + 1, i =>
    match suites[i]? with
    | none => suites
    | some s =>
      let suites2 := suites.set i { s with only := true }
      match s.parent with
      | none => suites2
      | some p => markFrom suites2 fuel p

/-- `markAncestorsAndSelfOnly(suite)` on the arena state, starting from the
suite at index `i`. -/
def markAncestorsAndSelfOnly (st : InternalState) (i : Nat) : InternalState :=
  { st with suites := markFrom st.suites st.suites.length i }

/-- `addTest(name, fn, only?, skip?)`: create the test owned by the current
suite, set its flags, mark ancestors when `only`, and push it onto the
current suite's `contents`. -/
def addTest (st : InternalState) (name : String) (fn : Action)
    (only skip : Bool) : InternalState :=
  let t : TestRec := { createTest name fn st.currentSuite with
                       only := only, skip := skip }
  let st1 := { st with tests := st.tests ++ [t] }
  let st2 := if only then markAncestorsAndSelfOnly st1 t.suite else st1
  let pushT := fun (s : SuiteRec) =>
    { s with contents := s.contents ++ [Entry.testRef st.tests.length] }
  { st2 with suites := updateSuite st2.suites st2.currentSuite pushT }

mutual

/-- A declaration-API call as performed by a test file while it loads:
`describe`/`describe.only`/`describe.skip` (with its synchronous body),
`test`/`test.only`/`test.skip`, and the four hook registrants. -/
inductive Decl where
  | describeD (name : String) (only skip : Bool) (body : DeclList) : Decl
  | testD (name : String) (fn : Action) (only skip : Bool) : Decl
  | beforeD (a : Action) : Decl
  | afterD (a : Action) : Decl
  | beforeEachD (a : Action) : Decl
  | afterEachD (a : Action) : Decl

/-- A sequence of declaration-API calls (a `describe` body, or a whole
test file). -/
inductive DeclList where
  | nil : DeclList
  | cons (d : Decl) (rest : DeclList) : DeclList

end

mutual

/-- `addSuite(name, fn, only?, skip?)`: create the suite with `parent` set
to the current suite, mark ancestors when `only`, push it onto the previous
current suite's `contents`, move the cursor to it, run the body
synchronously, and restore the cursor. -/
def addSuite (st : InternalState) (name : String) (body : DeclList)
    (only skip : Bool) : InternalState :=
  let prevSuite := st.currentSuite
  let newId := st.suites.length
  let s : SuiteRec := { createSuite with
                        name := some name, parent := some st.currentSuite,
                        skip := skip }
  let st1 := { st with suites := st.suites ++ [s] }
  let st2 := if only then markAncestorsAndSelfOnly st1 newId else st1
  let pushS := fun (q : SuiteRec) =>
    { q with contents := q.contents ++ [Entry.suiteRef newId] }
  let st3 := { st2 with suites := updateSuite st2.suites prevSuite pushS }
  let st4 := { st3 with currentSuite := newId }
  let st5 := runDecls st4 body
  { st5 with currentSuite := prevSuite }
termination_by (sizeOf body, 1)

/-- Execute one declaration-API call against the session state. -/
def runDecl : InternalState → Decl → InternalState
  | st, .describeD name only skip body => addSuite st name body only skip
  | st, .testD name fn only skip => addTest st name fn only skip
  | st, .beforeD a =>
    let f := fun (s : SuiteRec) => { s with before := s.before ++ [a] }
    { st with suites := updateSuite st.suites st.currentSuite f }
  | st, .afterD a =>
    let f := fun (s : SuiteRec) => { s with after := s.after ++ [a] }
    { st with suites := updateSuite st.suites st.currentSuite f }
  | st, .beforeEachD a =>
    let f := fun (s : SuiteRec) => { s with beforeEachH := s.beforeEachH ++ [a] }
    { st with suites := updateSuite st.suites st.currentSuite f }
  | st, .afterEachD a =>
    let f := fun (s : SuiteRec) => { s with afterEachH := s.afterEachH ++ [a] }
    { st with suites := updateSuite st.suites st.currentSuite f }
termination_by _ d => (sizeOf d, 2)

/-- Execute a sequence of declaration-API calls in order. -/
def runDecls : InternalState → DeclList → InternalState
  | st, .nil => st
  | st, .cons d rest => runDecls (runDecl st d) rest
termination_by _ ds => (sizeOf ds, 0)

end

/-- Loading a whole test file into a fresh session: `state = createState()`
followed by the file's declaration calls. -/
def buildState (ds : DeclList) : InternalState :=
  runDecls createState ds

/-- Read the finished object graph out of the arena as a `Node` tree
(`fuel` bounds the suite-nesting depth; `st.suites.length` always
suffices since each nested suite has a strictly larger index than its
parent). Dangling references — which never occur in reachable states —
yield placeholder nodes. -/
def toNodes (st : InternalState) : Nat → List Entry → NodeList
  | _, [] => .nil
  | fuel, .testRef i :: rest =>
    .cons (match st.tests[i]? with
           | some t => .test t.name t.fn t.only t.skip
           | none => .test "" ⟨0, true⟩ false false)
      (toNodes st fuel rest)
  | 0, .suiteRef _ :: rest =>
    .cons (.suite none false false .nil [] [] [] []) (toNodes st 0 rest)
  | fuel + 1, .suiteRef i :: rest =>
    .cons (match st.suites[i]? with
           | some s => .suite s.name s.only s.skip
               (toNodes st fuel s.contents) s.before s.after s.beforeEachH
               s.afterEachH
           | none => .suite none false false .nil [] [] [] [])
      (toNodes st (fuel + 1) rest)
termination_by fuel es => (fuel, sizeOf es)

/-- The root suite of the finished tree, as a `Node`. -/
def toTree (st : InternalState) : Node :=
  match st.suites[0]? with
  | some s => .suite s.name s.only s.skip
      (toNodes st st.suites.length s.contents) s.before s.after s.beforeEachH
      s.afterEachH
  | none => .suite none false false .nil [] [] [] []

/-! ## Derived run-phase definitions used by the theorems -/

/-- Sequential composition of run results: if the first fragment threw, the
second fragment never runs; otherwise the traces concatenate and the second
fragment's outcome stands. -/
def seqComp : RunResult → RunResult → RunResult
  | (t, some e), _ => (t, some e)
  | (t, none), (t2, e2) => (t ++ t2, e2)

/-- The execution of one non-filtered child, exactly as performed by the
loop body of `runSuite`: for a test, run the accumulated `beforeEach`
actions, the test body, the dot report, then the accumulated "afterEach"
actions (which the source populates from `beforeEach` lists); for a suite,
recurse with the extended name path and hook context. -/
def runChild (c : Node) (sBE : List Action) (opts : RunOpts) : RunResult :=
  match c with
  | .test _ fn _ _ =>
    match runActions (opts.beforeEachH ++ sBE) with
    | (t, some e) => (t, some e)
    | (t, none) =>
      if fn.ok then
        match runActions (opts.afterEachH ++ sBE) with
        | (t2, e2) => (t ++ (Ev.call fn.id :: Ev.dot :: t2), e2)
      else (t ++ [Ev.call fn.id], some fn.id)
  | .suite nm o sk cs b a be ae =>
    runSuite (.suite nm o sk cs b a be ae)
      ⟨opts.names ++ [nm], opts.beforeEachH ++ sBE, opts.afterEachH ++ sBE⟩

/-! ## Concrete fixtures for the defect claims -/

/-- A suite with one passing test, one registered `beforeEach` (action 0)
and one registered `afterEach` (action 1). -/
def c1Suite : Node :=
  .suite none false false
    (.cons (.test "t" ⟨2, true⟩ false false) .nil)
    [] [] [⟨0, true⟩] [⟨1, true⟩]

/-- A suite with a failing first test (action 0), a passing second test
(action 1) and one `after` hook (action 2). -/
def c2Suite : Node :=
  .suite none false false
    (.cons (.test "t1" ⟨0, false⟩ false false)
      (.cons (.test "t2" ⟨1, true⟩ false false) .nil))
    [] [⟨2, true⟩] [] []

/-- Three nested suites, each with one `beforeEach` (actions 1, 2, 3,
outermost first) and one `afterEach` (actions 4, 5, 6, outermost first),
and a single test (action 7) three suites deep. -/
def c4Suite : Node :=
  .suite (some "S1") false false
    (.cons (.suite (some "S2") false false
        (.cons (.suite (some "S3") false false
            (.cons (.test "t" ⟨7, true⟩ false false) .nil)
            [] [] [⟨3, true⟩] [⟨6, true⟩]) .nil)
        [] [] [⟨2, true⟩] [⟨5, true⟩]) .nil)
    [] [] [⟨1, true⟩] [⟨4, true⟩]

/-- Claim C1 (code bug, evaluated at the failing input): the source builds
the child's effective `afterEach` from the suite's `beforeEach` list
(`afterEach: [...opts.afterEach, ...suite.beforeEach]`), not from
`suite.afterEach`. On a suite with `beforeEach = [action 0]`,
`afterEach = [action 1]` and one passing test (action 2), the run executes
action 0 again after the test body, and the registered `afterEach`
action 1 never runs. -/
theorem C1_afterEach_populated_from_beforeEach :
    runAllTests c1Suite = ([Ev.call 0, Ev.call 2, Ev.dot, Ev.call 0], none) ∧
    Ev.call 1 ∉ (runAllTests c1Suite).1 := by decide

/-- Claim C2 (code bug, evaluated at the failing input): `runSuite` wraps
no try/catch around test execution, so a failing test body (action 0)
propagates its exception out of `runSuite`: no per-test failure event
exists in the event vocabulary, the passing sibling test (action 1) never
runs, the enclosing suite's `after` hook (action 2) never runs, and the
result carries the escaped exception. -/
theorem C2_test_failure_aborts_run :
    runAllTests c2Suite = ([Ev.call 0], some 0) ∧
    Ev.call 1 ∉ (runAllTests c2Suite).1 ∧
    Ev.call 2 ∉ (runAllTests c2Suite).1 ∧
    Ev.dot ∉ (runAllTests c2Suite).1 := by decide

/-- Claim C4 (code bug, evaluated at the failing input): for a test nested
three suites deep, the run executes the ancestor `beforeEach` hooks
outermost-first (actions 1, 2, 3), then the test body (action 7), but then
— because the source accumulates the `afterEach` context from `beforeEach`
lists — it executes the `beforeEach` hooks again (actions 1, 2, 3) instead
of the registered `afterEach` hooks (actions 6, 5, 4), which never run. -/
theorem C4_afterEach_hooks_never_run :
    runAllTests c4Suite =
      ([Ev.call 1, Ev.call 2, Ev.call 3, Ev.call 7, Ev.dot,
        Ev.call 1, Ev.call 2, Ev.call 3], none) ∧
    Ev.call 4 ∉ (runAllTests c4Suite).1 ∧
    Ev.call 5 ∉ (runAllTests c4Suite).1 ∧
    Ev.call 6 ∉ (runAllTests c4Suite).1 := by decide

/-- If some action in the list fails, the `before`-hook loop ends with an
exception and its trace contains the `beforeHookError` report. -/
theorem runBefore_mem_fail {l : List Action} {x : Action}
    (hx : x ∈ l) (hk : x.ok = false) :
    ∃ e, (runBefore l).2 = some e ∧ Ev.beforeHookError ∈ (runBefore l).1 := by
  induction l with
  | nil => cases hx
  | cons b rest ih =>
    by_cases hb : b.ok = true
    · rcases List.mem_cons.mp hx with h | h
      · subst h; rw [hk] at hb; cases hb
      · obtain ⟨e, he, hm⟩ := ih h
        refine ⟨e, ?_, ?_⟩ <;>
          simp [runBefore, hb, he, hm]
    · refine ⟨b.id, ?_, ?_⟩ <;>
        simp [runBefore, Bool.eq_false_iff.mpr hb]

/-- Claim C5: if any action in `suite.before` throws, `runSuite` reports a
`beforeHookError` event and returns with the exception: the trace is
exactly the `before`-loop trace — so none of the suite's contents and none
of its `after` hooks contribute any event — and the failure propagates to
the caller as the error component of the result. -/
theorem C5_before_failure_aborts (nm : Option String) (o sk : Bool)
    (cs : NodeList) (b a be ae : List Action) (opts : RunOpts) (x : Action)
    (hx : x ∈ b) (hk : x.ok = false) :
    ∃ e, runSuite (.suite nm o sk cs b a be ae) opts = ((runBefore b).1, some e) ∧
      Ev.beforeHookError ∈ (runBefore b).1 := by
  obtain ⟨e, he, hm⟩ := runBefore_mem_fail hx hk
  refine ⟨e, ?_, hm⟩
  have hrb : runBefore b = ((runBefore b).1, some e) := by
    rw [← he]
  simp only [runSuite]
  rw [hrb]

/-- Witness for C5 at a concrete input: a suite whose single `before` hook
(action 9) fails. -/
theorem C5_before_failure_aborts_witness :
    ((⟨9, false⟩ : Action) ∈ [(⟨9, false⟩ : Action)] ∧
      (⟨9, false⟩ : Action).ok = false) ∧
    (∃ e, runSuite (.suite none false false .nil [⟨9, false⟩] [] [] [])
          ⟨[], [], []⟩ = ((runBefore [⟨9, false⟩]).1, some e) ∧
        Ev.beforeHookError ∈ (runBefore [⟨9, false⟩]).1) :=
  ⟨⟨by decide, by decide⟩,
    C5_before_failure_aborts none false false .nil [⟨9, false⟩] [] [] []
      ⟨[], [], []⟩ ⟨9, false⟩ (by decide) (by decide)⟩

/-- `runSuite` on a suite node is the sequential composition of the
`before` loop, the contents loop (fed `contents.hasOnly`, computed once),
and the `after` loop. -/
theorem runSuite_eq_seqComp (nm : Option String) (o sk : Bool) (cs : NodeList)
    (b a be ae : List Action) (opts : RunOpts) :
    runSuite (.suite nm o sk cs b a be ae) opts =
      seqComp (runBefore b)
        (seqComp (runContents cs cs.hasOnly be opts) (runActions a)) := by
  simp only [runSuite]
  rcases hb : runBefore b with ⟨t, e⟩
  cases e with
  | some e => simp [seqComp]
  | none =>
    rcases hc : runContents cs cs.hasOnly be opts with ⟨t2, e2⟩
    cases e2 with
    | some e2 => simp [seqComp]
    | none =>
      rcases ha : runActions a with ⟨t3, e3⟩
      simp [seqComp]

/-- One step of the contents loop: the head child is skipped exactly when
`hasOnly && !only || skip`, and otherwise contributes its whole execution
before the rest of the loop runs. -/
theorem runContents_cons_eq (c : Node) (rest : NodeList) (hasOnly : Bool)
    (sBE : List Action) (opts : RunOpts) :
    runContents (.cons c rest) hasOnly sBE opts =
      if (hasOnly && !c.onlyFlag) || c.skipFlag
      then runContents rest hasOnly sBE opts
      else seqComp (runChild c sBE opts) (runContents rest hasOnly sBE opts) := by
  cases c with
    | test n fn o sk =>
      by_cases h1 : (hasOnly && !o) = true
      · simp [runContents, Node.onlyFlag, Node.skipFlag, h1]
      · by_cases h2 : sk = true
        · simp [runContents, Node.onlyFlag, Node.skipFlag, h1, h2]
        · simp only [runContents, runChild, Node.onlyFlag, Node.skipFlag, h1, h2,
            if_false, Bool.false_eq_true, Bool.or_self, ite_false]
          rcases hb : runActions (opts.beforeEachH ++ sBE) with ⟨t, e⟩
          cases e with
          | some e => simp [seqComp, hb]
          | none =>
            by_cases hf : fn.ok = true
            · rcases ha : runActions (opts.afterEachH ++ sBE) with ⟨t2, e2⟩
              cases e2 with
              | some e2 => simp [seqComp, hb, ha, hf]
              | none =>
                rcases hr : runContents rest hasOnly sBE opts with ⟨t3, e3⟩
                simp [seqComp, hb, ha, hf, hr]
            · simp [seqComp, hb, hf]
    | suite nm o sk cs b a be ae =>
      by_cases h1 : (hasOnly && !o) = true
      · simp [runContents, Node.onlyFlag, Node.skipFlag, h1]
      · by_cases h2 : sk = true
        · simp [runContents, Node.onlyFlag, Node.skipFlag, h1, h2]
        · have hsk : sk = false := by simpa using h2
          subst hsk
          simp only [runContents, runChild, Node.onlyFlag, Node.skipFlag, h1,
            if_false, Bool.false_eq_true, Bool.or_self, ite_false]
          rcases hs : runSuite (.suite nm o false cs b a be ae)
              ⟨opts.names ++ [nm], opts.beforeEachH ++ sBE,
                opts.afterEachH ++ sBE⟩ with ⟨t, e⟩
          cases e with
          | some e => simp [seqComp, hs]
          | none =>
            rcases hr : runContents rest hasOnly sBE opts with ⟨t2, e2⟩
            simp [seqComp, hs, hr]

/-- A skip-marked suite child contributes nothing, whatever its subtree
holds. -/
theorem runContents_skip_suite_eq (nm : Option String) (o : Bool)
    (cs : NodeList) (b a be ae : List Action) (rest : NodeList)
    (hasOnly : Bool) (sBE : List Action) (opts : RunOpts) :
    runContents (.cons (.suite nm o true cs b a be ae) rest) hasOnly sBE opts =
      runContents rest hasOnly sBE opts := by
  by_cases h1 : (hasOnly && !o) = true
  · simp [runContents, Node.onlyFlag, Node.skipFlag, h1]
  · simp [runContents, Node.onlyFlag, Node.skipFlag, h1]

/-- Claim C3: `runSuite` computes `contentsHasOnly = suite.contents.some
(node => node.only)` once per invocation and passes it unchanged to the
processing of every child (first conjunct); a child is excluded from
execution — contributing nothing to the run — if and only if
`contentsHasOnly` is true and the child is not `only`, or the child's own
`skip` is true (second conjunct); in particular a skip-marked suite child is
excluded together with its entire subtree, whatever only-marked descendants
that subtree contains (third conjunct, where the subtree `cs` is
arbitrary). -/
theorem C3_only_skip_filtering :
    (∀ (nm : Option String) (o sk : Bool) (cs : NodeList)
        (b a be ae : List Action) (opts : RunOpts),
        runSuite (.suite nm o sk cs b a be ae) opts =
          seqComp (runBefore b)
            (seqComp (runContents cs cs.hasOnly be opts) (runActions a))) ∧
    (∀ (c : Node) (rest : NodeList) (hasOnly : Bool) (sBE : List Action)
        (opts : RunOpts),
        runContents (.cons c rest) hasOnly sBE opts =
          if (hasOnly && !c.onlyFlag) || c.skipFlag
          then runContents rest hasOnly sBE opts
          else seqComp (runChild c sBE opts) (runContents rest hasOnly sBE opts)) ∧
    (∀ (nm : Option String) (o : Bool) (cs : NodeList) (b a be ae : List Action)
        (rest : NodeList) (hasOnly : Bool) (sBE : List Action) (opts : RunOpts),
        runContents (.cons (.suite nm o true cs b a be ae) rest) hasOnly sBE opts =
          runContents rest hasOnly sBE opts) :=
  ⟨runSuite_eq_seqComp, runContents_cons_eq, runContents_skip_suite_eq⟩

/-! ## Declaration-order execution (claim C8) -/

mutual

/-- No node of the tree is only-marked or skip-marked. -/
def Node.noMarks : Node → Bool
  | .test _ _ o sk => !o && !sk
  | .suite _ o sk cs _ _ _ _ => !o && !sk && cs.noMarks

/-- No node of the list of children (or their subtrees) is only-marked or
skip-marked. -/
def NodeList.noMarks : NodeList → Bool
  | .nil => true
  | .cons c rest => c.noMarks && rest.noMarks

end

mutual

/-- Every hook action and test body in the tree completes normally. -/
def Node.allOk : Node → Bool
  | .test _ fn _ _ => fn.ok
  | .suite _ _ _ cs b a be ae =>
    b.all (·.ok) && a.all (·.ok) && be.all (·.ok) && ae.all (·.ok) && cs.allOk

/-- Every hook action and test body under the listed children completes
normally. -/
def NodeList.allOk : NodeList → Bool
  | .nil => true
  | .cons c rest => c.allOk && rest.allOk

end

/-- The concatenation of the full executions of every listed child, in
declaration order. -/
def visitAll : NodeList → List Action → RunOpts → List Ev
  | .nil, _, _ => []
  | .cons c rest, sBE, opts => (runChild c sBE opts).1 ++ visitAll rest sBE opts

/-- When every action of the list succeeds, the plain sequential loop
invokes each action in order and returns normally. -/
theorem runActions_ok {l : List Action} (h : ∀ x ∈ l, x.ok = true) :
    runActions l = (l.map (fun x => Ev.call x.id), none) := by
  induction l with
  | nil => simp [runActions]
  | cons a rest ih =>
    have ha := h a (List.mem_cons_self a rest)
    simp [runActions, ha, ih (fun x hx => h x (List.mem_cons_of_mem a hx))]

/-- When every action of the list succeeds, the `before` loop invokes each
action in order and returns normally. -/
theorem runBefore_ok {l : List Action} (h : ∀ x ∈ l, x.ok = true) :
    runBefore l = (l.map (fun x => Ev.call x.id), none) := by
  induction l with
  | nil => simp [runBefore]
  | cons a rest ih =>
    have ha := h a (List.mem_cons_self a rest)
    simp [runBefore, ha, ih (fun x hx => h x (List.mem_cons_of_mem a hx))]

/-- An unmarked node has `only = false`. -/
theorem onlyFlag_false_of_noMarks {c : Node} (h : c.noMarks = true) :
    c.onlyFlag = false := by
  cases c with
  | test n fn o sk =>
    simp [Node.noMarks] at h
    simp [Node.onlyFlag, h.1]
  | suite nm o sk cs b a be ae =>
    simp [Node.noMarks] at h
    simp [Node.onlyFlag, h.1]

/-- An unmarked node has `skip = false`. -/
theorem skipFlag_false_of_noMarks {c : Node} (h : c.noMarks = true) :
    c.skipFlag = false := by
  cases c with
  | test n fn o sk =>
    simp [Node.noMarks] at h
    simp [Node.skipFlag, h.2]
  | suite nm o sk cs b a be ae =>
    simp [Node.noMarks] at h
    simp [Node.skipFlag, h.1.2]

/-- A list of unmarked children has `contentsHasOnly = false`. -/
theorem hasOnly_false_of_noMarks :
    ∀ {cs : NodeList}, cs.noMarks = true → cs.hasOnly = false
  | .nil, _ => rfl
  | .cons c rest, h => by
    simp [NodeList.noMarks] at h
    simp [NodeList.hasOnly, onlyFlag_false_of_noMarks h.1,
      hasOnly_false_of_noMarks h.2]

mutual

/-- Over an unmarked, all-succeeding tree (and all-succeeding inherited
hooks), `runSuite` returns normally. -/
theorem runSuite_ok (t : Node) (opts : RunOpts)
    (h1 : t.noMarks = true) (h2 : t.allOk = true)
    (hbe : ∀ x ∈ opts.beforeEachH, x.ok = true)
    (hae : ∀ x ∈ opts.afterEachH, x.ok = true) :
    (runSuite t opts).2 = none := by
  cases t with
  | test n fn o sk => simp [runSuite]
  | suite nm o sk cs b a be ae =>
    simp only [Node.noMarks, Bool.and_eq_true] at h1
    simp only [Node.allOk, Bool.and_eq_true, List.all_eq_true] at h2
    rw [runSuite_eq_seqComp]
    rw [runBefore_ok (by simpa using h2.1.1.1.1)]
    rw [hasOnly_false_of_noMarks h1.2]
    rw [runContents_visitAll cs be opts h1.2 h2.2 hbe hae
      (by simpa using h2.1.1.2)]
    rw [runActions_ok (by simpa using h2.1.1.1.2)]
    simp [seqComp]

/-- Over unmarked, all-succeeding children (and all-succeeding inherited
and suite hooks), the contents loop is exactly the concatenation of every
child's full execution, in declaration order, returning normally. -/
theorem runContents_visitAll (cs : NodeList) (sBE : List Action)
    (opts : RunOpts) (h1 : cs.noMarks = true) (h2 : cs.allOk = true)
    (hbe : ∀ x ∈ opts.beforeEachH, x.ok = true)
    (hae : ∀ x ∈ opts.afterEachH, x.ok = true)
    (hs : ∀ x ∈ sBE, x.ok = true) :
    runContents cs false sBE opts = (visitAll cs sBE opts, none) := by
  cases cs with
  | nil => simp [runContents, visitAll]
  | cons c rest =>
    simp only [NodeList.noMarks, Bool.and_eq_true] at h1
    simp only [NodeList.allOk, Bool.and_eq_true] at h2
    rw [runContents_cons_eq]
    rw [onlyFlag_false_of_noMarks h1.1, skipFlag_false_of_noMarks h1.1]
    have hch : (runChild c sBE opts).2 = none := by
      cases c with
      | test n fn o sk =>
        have hok : fn.ok = true := by simpa [Node.allOk] using h2.1
        have hb : ∀ x ∈ opts.beforeEachH ++ sBE, x.ok = true := by
          intro x hx
          rcases List.mem_append.mp hx with hx | hx
          · exact hbe x hx
          · exact hs x hx
        have ha : ∀ x ∈ opts.afterEachH ++ sBE, x.ok = true := by
          intro x hx
          rcases List.mem_append.mp hx with hx | hx
          · exact hae x hx
          · exact hs x hx
        simp [runChild, runActions_ok hb, runActions_ok ha, hok]
      | suite nm o sk cs' b a be ae =>
        have hb : ∀ x ∈ opts.beforeEachH ++ sBE, x.ok = true := by
          intro x hx
          rcases List.mem_append.mp hx with hx | hx
          · exact hbe x hx
          · exact hs x hx
        have ha : ∀ x ∈ opts.afterEachH ++ sBE, x.ok = true := by
          intro x hx
          rcases List.mem_append.mp hx with hx | hx
          · exact hae x hx
          · exact hs x hx
        simpa [runChild] using
          runSuite_ok (.suite nm o sk cs' b a be ae)
            ⟨opts.names ++ [nm], opts.beforeEachH ++ sBE,
              opts.afterEachH ++ sBE⟩ h1.1 h2.1 hb ha
    rw [runContents_visitAll rest sBE opts h1.2 h2.2 hbe hae hs]
    rcases hc : runChild c sBE opts with ⟨t, e⟩
    rw [hc] at hch
    simp at hch
    subst hch
    simp [seqComp, visitAll, hc]

end

/-- A suite with no only/skip marks whose first test (action 0) fails and
whose second test (action 1) passes. -/
def c8Suite : Node :=
  .suite none false false
    (.cons (.test "a" ⟨0, false⟩ false false)
      (.cons (.test "b" ⟨1, true⟩ false false) .nil))
    [] [] [] []

/-- Claim C8 as stated is false at a concrete input: in a tree with no
only-marked and no skip-marked nodes, the second (non-filtered) child is
never visited, because the first test's exception aborts the loop. -/
theorem C8_counterexample :
    c8Suite.noMarks = true ∧
    runAllTests c8Suite = ([Ev.call 0], some 0) ∧
    Ev.call 1 ∉ (runAllTests c8Suite).1 := by decide

/-- Claim C8, amended: over a tree with no only/skip marks in which every
hook and test action completes normally (and all inherited hook actions
complete normally), execution visits every child of every suite
sequentially in exactly declaration order: the suite's run is its `before`
loop, then the concatenation of each child's full execution in `contents`
order, then its `after` loop, all returning normally; and at each level the
contents loop (fed its `contentsHasOnly`, which is false) equals that exact
in-order concatenation. Identical declarations give identical event
sequences since the run is a pure function of the tree. -/
theorem C8_declaration_order (nm : Option String) (o sk : Bool)
    (cs : NodeList) (b a be ae : List Action) (opts : RunOpts)
    (h1 : Node.noMarks (.suite nm o sk cs b a be ae) = true)
    (h2 : Node.allOk (.suite nm o sk cs b a be ae) = true)
    (hbe : ∀ x ∈ opts.beforeEachH, x.ok = true)
    (hae : ∀ x ∈ opts.afterEachH, x.ok = true) :
    runSuite (.suite nm o sk cs b a be ae) opts =
      ((runBefore b).1 ++ (visitAll cs be opts ++ (runActions a).1), none) ∧
    runContents cs cs.hasOnly be opts = (visitAll cs be opts, none) := by
  simp only [Node.noMarks, Bool.and_eq_true] at h1
  simp only [Node.allOk, Bool.and_eq_true, List.all_eq_true] at h2
  have hc : runContents cs cs.hasOnly be opts = (visitAll cs be opts, none) := by
    rw [hasOnly_false_of_noMarks h1.2]
    exact runContents_visitAll cs be opts h1.2 h2.2 hbe hae
      (by simpa using h2.1.1.2)
  refine ⟨?_, hc⟩
  rw [runSuite_eq_seqComp, hc]
  rw [runBefore_ok (by simpa using h2.1.1.1.1)]
  rw [runActions_ok (by simpa using h2.1.1.1.2)]
  simp [seqComp]

/-- Witness for the amended C8 at a concrete input: a suite with hooks
(before 0, beforeEach 1, afterEach 2, after 5) and two passing tests
(actions 3, 4). -/
theorem C8_declaration_order_witness :
    (Node.noMarks (.suite none false false
        (.cons (.test "x" ⟨3, true⟩ false false)
          (.cons (.test "y" ⟨4, true⟩ false false) .nil))
        [⟨0, true⟩] [⟨5, true⟩] [⟨1, true⟩] [⟨2, true⟩]) = true ∧
      Node.allOk (.suite none false false
        (.cons (.test "x" ⟨3, true⟩ false false)
          (.cons (.test "y" ⟨4, true⟩ false false) .nil))
        [⟨0, true⟩] [⟨5, true⟩] [⟨1, true⟩] [⟨2, true⟩]) = true) ∧
    (runSuite (.suite none false false
        (.cons (.test "x" ⟨3, true⟩ false false)
          (.cons (.test "y" ⟨4, true⟩ false false) .nil))
        [⟨0, true⟩] [⟨5, true⟩] [⟨1, true⟩] [⟨2, true⟩]) ⟨[], [], []⟩ =
      ((runBefore [⟨0, true⟩]).1 ++
        (visitAll (.cons (.test "x" ⟨3, true⟩ false false)
            (.cons (.test "y" ⟨4, true⟩ false false) .nil)) [⟨1, true⟩]
            ⟨[], [], []⟩ ++ (runActions [⟨5, true⟩]).1), none) ∧
      runContents (.cons (.test "x" ⟨3, true⟩ false false)
          (.cons (.test "y" ⟨4, true⟩ false false) .nil))
        (NodeList.hasOnly (.cons (.test "x" ⟨3, true⟩ false false)
          (.cons (.test "y" ⟨4, true⟩ false false) .nil))) [⟨1, true⟩]
        ⟨[], [], []⟩ =
        (visitAll (.cons (.test "x" ⟨3, true⟩ false false)
          (.cons (.test "y" ⟨4, true⟩ false false) .nil)) [⟨1, true⟩]
          ⟨[], [], []⟩, none)) :=
  ⟨⟨by decide, by decide⟩,
    C8_declaration_order none false false
      (.cons (.test "x" ⟨3, true⟩ false false)
        (.cons (.test "y" ⟨4, true⟩ false false) .nil))
      [⟨0, true⟩] [⟨5, true⟩] [⟨1, true⟩] [⟨2, true⟩] ⟨[], [], []⟩
      (by decide) (by decide) (by decide) (by decide)⟩

/-! ## The parent-chain walk (claims C6, C10) -/

/-- A suite record with its `only` flag blanked: two records agree under
`eraseOnly` exactly when they agree on every field other than `only`. -/
def SuiteRec.eraseOnly (s : SuiteRec) : SuiteRec := { s with only := false }

/-- The sequence of arena indices visited by the
`while (current) \x7b ... current = current.parent; \x7d` walk starting at `i`,
with the same fuel discipline as `markFrom`. -/
def chainIdx (suites : List SuiteRec) : Nat → Nat → List Nat
  | 0, _ => []
  | fuel + 1, i =>
    match suites[i]? with
    | none => []
    | some s =>
      i :: (match s.parent with
            | none => []
            | some p => chainIdx suites fuel p)

/-- Parent indices strictly decrease: every suite's parent was created
before it. This is the acyclicity invariant of the arena. -/
def ParentsDec (suites : List SuiteRec) : Prop :=
  ∀ (j : Nat) (s : SuiteRec) (p : Nat),
    suites[j]? = some s → s.parent = some p → p < j

/-- Two suite records equal under `eraseOnly` and with equal `only` flags
are equal. -/
theorem SuiteRec.eq_of_eraseOnly {s1 s2 : SuiteRec}
    (h : s1.eraseOnly = s2.eraseOnly) (ho : s1.only = s2.only) : s1 = s2 := by
  cases s1; cases s2
  simp [SuiteRec.eraseOnly, SuiteRec.mk.injEq] at h ⊢
  tauto

/-- The walk never changes the number of suites. -/
theorem markFrom_length (fuel : Nat) :
    ∀ (suites : List SuiteRec) (i : Nat),
      (markFrom suites fuel i).length = suites.length := by
  induction fuel with
  | zero => intro suites i; rfl
  | succ fuel ih =>
    intro suites i
    cases h : suites[i]? with
    | none => simp [markFrom, h]
    | some s =>
      cases hp : s.parent with
      | none => simp [markFrom, h, hp]
      | some p => simp [markFrom, h, hp, ih]

/-- The walk changes no field other than `only`, at any index. -/
theorem markFrom_eraseOnly (fuel : Nat) :
    ∀ (suites : List SuiteRec) (i j : Nat),
      ((markFrom suites fuel i)[j]?).map SuiteRec.eraseOnly =
        (suites[j]?).map SuiteRec.eraseOnly := by
  induction fuel with
  | zero => intro suites i j; rfl
  | succ fuel ih =>
    intro suites i j
    cases h : suites[i]? with
    | none => simp [markFrom, h]
    | some s =>
      have hset : ∀ k : Nat, ((suites.set i { s with only := true })[k]?).map
          SuiteRec.eraseOnly = (suites[k]?).map SuiteRec.eraseOnly := by
        intro k
        rw [List.getElem?_set]
        by_cases hik : i = k
        · subst hik
          rcases List.getElem?_eq_some.mp h with ⟨hlt, hv⟩
          simp only [hlt, if_true, h, ← hv]
          simp [SuiteRec.eraseOnly]
        · simp [hik]
      cases hp : s.parent with
      | none => simpa [markFrom, h, hp] using hset j
      | some p => simpa [markFrom, h, hp, ih] using hset j

/-- The walk never clears an `only` flag that is already set. -/
theorem markFrom_only_mono (fuel : Nat) :
    ∀ (suites : List SuiteRec) (i j : Nat),
      (suites[j]?).map (·.only) = some true →
      ((markFrom suites fuel i)[j]?).map (·.only) = some true := by
  induction fuel with
  | zero => intro suites i j hj; exact hj
  | succ fuel ih =>
    intro suites i j hj
    cases h : suites[i]? with
    | none => simpa [markFrom, h] using hj
    | some s =>
      have hset : ((suites.set i { s with only := true })[j]?).map (·.only) =
          some true := by
        rw [List.getElem?_set]
        by_cases hik : i = j
        · subst hik
          rcases List.getElem?_eq_some.mp h with ⟨hlt, _⟩
          simp [hlt]
        · simpa [hik] using hj
      cases hp : s.parent with
      | none => simpa [markFrom, h, hp] using hset
      | some p =>
        have := ih (suites.set i { s with only := true }) p j hset
        simpa [markFrom, h, hp] using this

/-- Setting an index of a list to the value it already holds changes
nothing. -/
theorem set_getElem?_self {α : Type} {l : List α} {i : Nat} {a : α}
    (h : l[i]? = some a) : l.set i a = l := by
  apply List.ext_getElem?
  intro n
  rw [List.getElem?_set]
  by_cases hin : i = n
  · subst hin
    rcases List.getElem?_eq_some.mp h with ⟨hlt, _⟩
    simp [hlt, h]
  · simp [hin]

/-- Unfolding: the walk at a dangling index stops. -/
theorem markFrom_none {suites : List SuiteRec} {i : Nat} (fuel : Nat)
    (h : suites[i]? = none) : markFrom suites (fuel + 1) i = suites := by
  simp only [markFrom, h]

/-- Unfolding: the walk at a root (no parent) marks it and stops. -/
theorem markFrom_root {suites : List SuiteRec} {i : Nat} {s : SuiteRec}
    (fuel : Nat) (h : suites[i]? = some s) (hp : s.parent = none) :
    markFrom suites (fuel + 1) i = suites.set i { s with only := true } := by
  simp only [markFrom, h, hp]

/-- Unfolding: the walk at a non-root marks it and moves to its parent. -/
theorem markFrom_step {suites : List SuiteRec} {i p : Nat} {s : SuiteRec}
    (fuel : Nat) (h : suites[i]? = some s) (hp : s.parent = some p) :
    markFrom suites (fuel + 1) i =
      markFrom (suites.set i { s with only := true }) fuel p := by
  simp only [markFrom, h, hp]

/-- Unfolding: the chain at a dangling index is empty. -/
theorem chainIdx_none {suites : List SuiteRec} {i : Nat} (fuel : Nat)
    (h : suites[i]? = none) : chainIdx suites (fuel + 1) i = [] := by
  simp only [chainIdx, h]

/-- Unfolding: the chain at a root is that single index. -/
theorem chainIdx_root {suites : List SuiteRec} {i : Nat} {s : SuiteRec}
    (fuel : Nat) (h : suites[i]? = some s) (hp : s.parent = none) :
    chainIdx suites (fuel + 1) i = [i] := by
  simp only [chainIdx, h, hp]

/-- Unfolding: the chain at a non-root is the index followed by the
parent's chain. -/
theorem chainIdx_step {suites : List SuiteRec} {i p : Nat} {s : SuiteRec}
    (fuel : Nat) (h : suites[i]? = some s) (hp : s.parent = some p) :
    chainIdx suites (fuel + 1) i = i :: chainIdx suites fuel p := by
  simp only [chainIdx, h, hp]

/-- Reading the marked entry after one marking step. -/
theorem getElem?_set_only_self {suites : List SuiteRec} {i : Nat}
    {s : SuiteRec} (h : suites[i]? = some s) :
    (suites.set i { s with only := true })[i]? = some { s with only := true } := by
  rw [List.getElem?_set]
  rcases List.getElem?_eq_some.mp h with ⟨hlt, _⟩
  simp [hlt]

/-- Reading any other entry after one marking step. -/
theorem getElem?_set_only_other {suites : List SuiteRec} {i j : Nat}
    {s : SuiteRec} (hij : i ≠ j) :
    (suites.set i { s with only := true })[j]? = suites[j]? := by
  rw [List.getElem?_set]
  simp [hij]

/-- The walk's path depends only on the lists' parent structure. -/
theorem chainIdx_congr {l1 l2 : List SuiteRec}
    (hpar : ∀ k : Nat, (l2[k]?).map (·.parent) = (l1[k]?).map (·.parent)) :
    ∀ (fuel j : Nat), chainIdx l2 fuel j = chainIdx l1 fuel j := by
  intro fuel
  induction fuel with
  | zero => intro j; rfl
  | succ fuel ih =>
    intro j
    have hj := hpar j
    cases h1 : l1[j]? with
    | none =>
      rw [h1] at hj
      cases h2 : l2[j]? with
      | none => rw [chainIdx_none fuel h1, chainIdx_none fuel h2]
      | some u => rw [h2] at hj; cases hj
    | some t =>
      rw [h1] at hj
      cases h2 : l2[j]? with
      | none => rw [h2] at hj; cases hj
      | some u =>
        rw [h2] at hj
        have hput : u.parent = t.parent := by simpa using hj
        cases hp : t.parent with
        | none =>
          rw [chainIdx_root fuel h1 hp,
            chainIdx_root fuel h2 (hput.trans hp)]
        | some p =>
          rw [chainIdx_step fuel h1 hp,
            chainIdx_step fuel h2 (hput.trans hp), ih]

/-- Setting an `only` flag does not change any chain. -/
theorem chainIdx_set_only (suites : List SuiteRec) (i : Nat) (s : SuiteRec)
    (h : suites[i]? = some s) :
    ∀ (fuel j : Nat),
      chainIdx (suites.set i { s with only := true }) fuel j =
        chainIdx suites fuel j := by
  apply chainIdx_congr
  intro k
  by_cases hik : i = k
  · subst hik
    rw [getElem?_set_only_self h, h]
    rfl
  · rw [getElem?_set_only_other hik]

/-- Indices off the walked chain are left completely unchanged. -/
theorem markFrom_off_chain (fuel : Nat) :
    ∀ (suites : List SuiteRec) (i j : Nat),
      j ∉ chainIdx suites fuel i →
      (markFrom suites fuel i)[j]? = suites[j]? := by
  induction fuel with
  | zero => intro suites i j _; rfl
  | succ fuel ih =>
    intro suites i j hj
    cases h : suites[i]? with
    | none => rw [markFrom_none fuel h]
    | some s =>
      cases hp : s.parent with
      | none =>
        rw [chainIdx_root fuel h hp] at hj
        simp only [List.mem_singleton] at hj
        rw [markFrom_root fuel h hp]
        exact getElem?_set_only_other (fun he => hj he.symm)
      | some p =>
        rw [chainIdx_step fuel h hp] at hj
        simp only [List.mem_cons, not_or] at hj
        rw [markFrom_step fuel h hp]
        have hj2 : j ∉ chainIdx (suites.set i { s with only := true }) fuel p := by
          rw [chainIdx_set_only suites i s h]
          exact hj.2
        rw [ih _ p j hj2]
        exact getElem?_set_only_other (fun he => hj.1 he.symm)

/-- Every index on the walked chain ends with `only = true`. -/
theorem markFrom_marks_chain (fuel : Nat) :
    ∀ (suites : List SuiteRec) (i j : Nat),
      j ∈ chainIdx suites fuel i →
      ((markFrom suites fuel i)[j]?).map (·.only) = some true := by
  induction fuel with
  | zero => intro suites i j hj; simp [chainIdx] at hj
  | succ fuel ih =>
    intro suites i j hj
    cases h : suites[i]? with
    | none => rw [chainIdx_none fuel h] at hj; cases hj
    | some s =>
      cases hp : s.parent with
      | none =>
        rw [chainIdx_root fuel h hp] at hj
        simp only [List.mem_singleton] at hj
        subst hj
        rw [markFrom_root fuel h hp, getElem?_set_only_self h]
        rfl
      | some p =>
        rw [chainIdx_step fuel h hp] at hj
        rw [markFrom_step fuel h hp]
        rcases List.mem_cons.mp hj with hj | hj
        · subst hj
          apply markFrom_only_mono
          rw [getElem?_set_only_self h]
          rfl
        · apply ih
          rw [chainIdx_set_only suites i s h]
          exact hj

/-- Variant of `markFrom_root` taking the marked record as a parameter (so
the rewrite target can be given in already-reduced form). -/
theorem markFrom_root' {suites : List SuiteRec} {i : Nat} {s s' : SuiteRec}
    (fuel : Nat) (h : suites[i]? = some s) (hp : s.parent = none)
    (hs' : s' = { s with only := true }) :
    markFrom suites (fuel + 1) i = suites.set i s' := by
  rw [hs']
  exact markFrom_root fuel h hp

/-- Variant of `markFrom_step` taking the marked record as a parameter. -/
theorem markFrom_step' {suites : List SuiteRec} {i p : Nat} {s s' : SuiteRec}
    (fuel : Nat) (h : suites[i]? = some s) (hp : s.parent = some p)
    (hs' : s' = { s with only := true }) :
    markFrom suites (fuel + 1) i = markFrom (suites.set i s') fuel p := by
  rw [hs']
  exact markFrom_step fuel h hp

/-- Walking a second time from the same start changes nothing: the walk is
idempotent. -/
theorem markFrom_idem (fuel : Nat) :
    ∀ (suites : List SuiteRec) (i : Nat),
      markFrom (markFrom suites fuel i) fuel i = markFrom suites fuel i := by
  induction fuel with
  | zero => intro suites i; rfl
  | succ fuel ih =>
    intro suites i
    cases h : suites[i]? with
    | none => rw [markFrom_none fuel h, markFrom_none fuel h]
    | some s =>
      cases hp : s.parent with
      | none =>
        rw [markFrom_root fuel h hp,
          markFrom_root' fuel (getElem?_set_only_self h) hp rfl,
          List.set_set]
      | some p =>
        rw [markFrom_step fuel h hp]
        have her : ((markFrom (suites.set i { s with only := true }) fuel p)[i]?).map
            SuiteRec.eraseOnly = some (SuiteRec.eraseOnly { s with only := true }) := by
          rw [markFrom_eraseOnly, getElem?_set_only_self h]
          rfl
        have hon : ((markFrom (suites.set i { s with only := true }) fuel p)[i]?).map
            (·.only) = some true := by
          apply markFrom_only_mono
          rw [getElem?_set_only_self h]
          rfl
        obtain ⟨s2, hs2, hs2e, hs2o⟩ :
            ∃ s2, (markFrom (suites.set i { s with only := true }) fuel p)[i]? =
                some s2 ∧
              SuiteRec.eraseOnly s2 = SuiteRec.eraseOnly { s with only := true } ∧
              s2.only = true := by
          cases hr : (markFrom (suites.set i { s with only := true }) fuel p)[i]? with
          | none => rw [hr] at her; cases her
          | some s2 =>
            rw [hr] at her hon
            exact ⟨s2, rfl, by simpa using her, by simpa using hon⟩
        have hs21 : s2 = { s with only := true } :=
          SuiteRec.eq_of_eraseOnly hs2e (by simp [hs2o])
        rw [hs21] at hs2
        have hpar : ({ s with only := true } : SuiteRec).parent = some p := hp
        rw [markFrom_step' fuel hs2 hpar rfl, set_getElem?_self hs2]
        exact ih _ p

/-- The acyclicity invariant survives setting an `only` flag. -/
theorem parentsDec_set_only {suites : List SuiteRec} {i : Nat} {s : SuiteRec}
    (h : suites[i]? = some s) (hpd : ParentsDec suites) :
    ParentsDec (suites.set i { s with only := true }) := by
  intro j t p hj hp
  by_cases hij : i = j
  · subst hij
    rw [getElem?_set_only_self h] at hj
    have ht : t = { s with only := true } := by cases hj; rfl
    subst ht
    exact hpd i s p h hp
  · rw [getElem?_set_only_other hij] at hj
    exact hpd j t p hj hp

/-- For a start index below the arena size, any fuel of at least `i + 1`
computes the same walk: the loop needs at most `i + 1` iterations, so the
unbounded `while` loop of the source terminates on acyclic arenas. -/
theorem markFrom_stable :
    ∀ (i : Nat) (suites : List SuiteRec), ParentsDec suites →
      i < suites.length → ∀ (f g : Nat), i + 1 ≤ f → i + 1 ≤ g →
      markFrom suites f i = markFrom suites g i := by
  intro i
  induction i using Nat.strong_induction_on with
  | _ i ih =>
    intro suites hpd hi f g hf hg
    obtain ⟨f', rfl⟩ : ∃ f', f = f' + 1 := ⟨f - 1, by omega⟩
    obtain ⟨g', rfl⟩ : ∃ g', g = g' + 1 := ⟨g - 1, by omega⟩
    cases h : suites[i]? with
    | none => rw [markFrom_none f' h, markFrom_none g' h]
    | some s =>
      cases hp : s.parent with
      | none => rw [markFrom_root f' h hp, markFrom_root g' h hp]
      | some p =>
        have hpi : p < i := hpd i s p h hp
        have hpd2 : ParentsDec (suites.set i { s with only := true }) :=
          parentsDec_set_only h hpd
        have hpl : p < (suites.set i { s with only := true }).length := by
          simp only [List.length_set]
          omega
        rw [markFrom_step f' h hp, markFrom_step g' h hp]
        exact ih p hpi _ hpd2 hpl f' g' (by omega) (by omega)

/-- The walk's start index is on its own chain (given enough fuel). -/
theorem mem_chainIdx_self {suites : List SuiteRec} {i : Nat} (fuel : Nat)
    (hi : i < suites.length) : i ∈ chainIdx suites (fuel + 1) i := by
  have h : suites[i]? = some suites[i] := List.getElem?_eq_getElem hi
  cases hp : (suites[i]).parent with
  | none =>
    rw [chainIdx_root fuel h hp]
    exact List.mem_singleton.mpr rfl
  | some p =>
    rw [chainIdx_step fuel h hp]
    exact List.mem_cons_self _ _

/-- Claim C6: `markAncestorsAndSelfOnly` sets `only = true` on the suite
itself and on every suite on its parent chain (the walk visited by
`chainIdx` with the same fuel, which includes the start node); entries off
the chain are untouched, no field other than `only` changes anywhere, the
test arena and the cursor are untouched, and the operation is idempotent. -/
theorem C6_markAncestorsAndSelfOnly (st : InternalState) (i : Nat)
    (hi : i < st.suites.length) :
    i ∈ chainIdx st.suites st.suites.length i ∧
    (∀ j ∈ chainIdx st.suites st.suites.length i,
      ((markAncestorsAndSelfOnly st i).suites[j]?).map (·.only) = some true) ∧
    (∀ j : Nat, j ∉ chainIdx st.suites st.suites.length i →
      (markAncestorsAndSelfOnly st i).suites[j]? = st.suites[j]?) ∧
    (∀ j : Nat, ((markAncestorsAndSelfOnly st i).suites[j]?).map
      SuiteRec.eraseOnly = (st.suites[j]?).map SuiteRec.eraseOnly) ∧
    (markAncestorsAndSelfOnly st i).tests = st.tests ∧
    (markAncestorsAndSelfOnly st i).currentSuite = st.currentSuite ∧
    markAncestorsAndSelfOnly (markAncestorsAndSelfOnly st i) i =
      markAncestorsAndSelfOnly st i := by
  refine ⟨?_, ?_, ?_, ?_, rfl, rfl, ?_⟩
  · obtain ⟨k, hk⟩ : ∃ k, st.suites.length = k + 1 :=
      ⟨st.suites.length - 1, by omega⟩
    rw [hk]
    exact mem_chainIdx_self k hi
  · intro j hj
    simpa [markAncestorsAndSelfOnly] using
      markFrom_marks_chain st.suites.length st.suites i j hj
  · intro j hj
    simpa [markAncestorsAndSelfOnly] using
      markFrom_off_chain st.suites.length st.suites i j hj
  · intro j
    simpa [markAncestorsAndSelfOnly] using
      markFrom_eraseOnly st.suites.length st.suites i j
  · simp only [markAncestorsAndSelfOnly]
    rw [markFrom_length, markFrom_idem]

/-- A two-suite arena (root plus one child) with the cursor at the root. -/
def c6State : InternalState :=
  ⟨[createSuite, { createSuite with parent := some 0 }], [], 0⟩

/-- Witness for C6 at a concrete input: marking the child suite (index 1)
of a two-suite arena. -/
theorem C6_markAncestorsAndSelfOnly_witness :
    1 < c6State.suites.length ∧
    (1 ∈ chainIdx c6State.suites c6State.suites.length 1 ∧
      (∀ j ∈ chainIdx c6State.suites c6State.suites.length 1,
        ((markAncestorsAndSelfOnly c6State 1).suites[j]?).map (·.only) =
          some true) ∧
      (∀ j : Nat, j ∉ chainIdx c6State.suites c6State.suites.length 1 →
        (markAncestorsAndSelfOnly c6State 1).suites[j]? = c6State.suites[j]?) ∧
      (∀ j : Nat, ((markAncestorsAndSelfOnly c6State 1).suites[j]?).map
        SuiteRec.eraseOnly = (c6State.suites[j]?).map SuiteRec.eraseOnly) ∧
      (markAncestorsAndSelfOnly c6State 1).tests = c6State.tests ∧
      (markAncestorsAndSelfOnly c6State 1).currentSuite = c6State.currentSuite ∧
      markAncestorsAndSelfOnly (markAncestorsAndSelfOnly c6State 1) 1 =
        markAncestorsAndSelfOnly c6State 1) :=
  ⟨by decide, C6_markAncestorsAndSelfOnly c6State 1 (by decide)⟩

/-! ## Reachable-state invariant (claims C7, C9, C10) -/

/-- Invariant of session states reachable through `createState`, `addSuite`
and `addTest`: the cursor is a valid suite index, the root suite (index 0)
has no parent, and parent indices strictly decrease (each suite's parent
was created before it). -/
def StInv (st : InternalState) : Prop :=
  st.currentSuite < st.suites.length ∧
  (st.suites[0]?).map (·.parent) = some none ∧
  ParentsDec st.suites

/-- `updateSuite` reads pointwise: the targeted index is mapped through
`f`, all others are unchanged. -/
theorem updateSuite_getElem? (suites : List SuiteRec) (i : Nat)
    (f : SuiteRec → SuiteRec) (j : Nat) :
    (updateSuite suites i f)[j]? =
      if i = j then (suites[j]?).map f else suites[j]? := by
  unfold updateSuite
  cases h : suites[i]? with
  | none =>
    by_cases hij : i = j
    · subst hij
      simp [h]
    · simp [hij]
  | some s =>
    rw [List.getElem?_set]
    rcases List.getElem?_eq_some.mp h with ⟨hlt, _⟩
    by_cases hij : i = j
    · subst hij
      simp [hlt, h]
    · simp [hij]

/-- `updateSuite` preserves the arena size. -/
theorem updateSuite_length (suites : List SuiteRec) (i : Nat)
    (f : SuiteRec → SuiteRec) :
    (updateSuite suites i f).length = suites.length := by
  unfold updateSuite
  cases h : suites[i]? with
  | none => rfl
  | some s => simp

/-- Transfer of the acyclicity invariant along pointwise parent equality. -/
theorem parentsDec_congr {l1 l2 : List SuiteRec}
    (hpar : ∀ k : Nat, (l2[k]?).map (·.parent) = (l1[k]?).map (·.parent))
    (hpd : ParentsDec l1) : ParentsDec l2 := by
  intro j t p hj hp
  have hk := hpar j
  rw [hj] at hk
  cases hs : l1[j]? with
  | none => rw [hs] at hk; cases hk
  | some u =>
    rw [hs] at hk
    have hput : t.parent = u.parent := by simpa using hk
    exact hpd j u p hs (hput ▸ hp)

/-- Agreement under `eraseOnly` implies agreement of parents. -/
theorem parent_map_of_eraseOnly {o1 o2 : Option SuiteRec}
    (h : o1.map SuiteRec.eraseOnly = o2.map SuiteRec.eraseOnly) :
    o1.map (·.parent) = o2.map (·.parent) := by
  cases o1 with
  | none =>
    cases o2 with
    | none => rfl
    | some u => simp at h
  | some t =>
    cases o2 with
    | none => simp at h
    | some u =>
      simp only [Option.map_some'] at h ⊢
      have hpq : t.eraseOnly.parent = u.eraseOnly.parent := by
        rw [Option.some_inj.mp h]
      simpa [SuiteRec.eraseOnly] using hpq

/-- Appending a suite whose parent index is in range keeps parent indices
strictly decreasing. -/
theorem parentsDec_append {suites : List SuiteRec} {s : SuiteRec} {c : Nat}
    (hpd : ParentsDec suites) (hc : s.parent = some c)
    (hlt : c < suites.length) : ParentsDec (suites ++ [s]) := by
  intro j t p hj hp
  by_cases hjl : j < suites.length
  · rw [List.getElem?_append_left hjl] at hj
    exact hpd j t p hj hp
  · have hj' : j = suites.length := by
      rcases List.getElem?_eq_some.mp hj with ⟨hh, _⟩
      simp only [List.length_append, List.length_singleton] at hh
      omega
    subst hj'
    have hgs : (suites ++ [s])[suites.length]? = some s := by simp
    rw [hgs] at hj
    cases hj
    rw [hc] at hp
    cases hp
    omega

/-- `StInv` transfers along cursor, size and pointwise parent agreement. -/
theorem stInv_of_parent_map {st st' : InternalState}
    (hcur : st'.currentSuite = st.currentSuite)
    (hlen : st'.suites.length = st.suites.length)
    (hpar : ∀ k : Nat,
      (st'.suites[k]?).map (·.parent) = (st.suites[k]?).map (·.parent))
    (h : StInv st) : StInv st' := by
  obtain ⟨h1, h2, h3⟩ := h
  refine ⟨?_, ?_, parentsDec_congr hpar h3⟩
  · rw [hcur, hlen]; exact h1
  · rw [hpar 0, h2]

/-- Marking preserves cursor, size and all parents. -/
theorem mark_state_facts (st : InternalState) (i : Nat) :
    (markAncestorsAndSelfOnly st i).currentSuite = st.currentSuite ∧
    (markAncestorsAndSelfOnly st i).suites.length = st.suites.length ∧
    (∀ k : Nat, ((markAncestorsAndSelfOnly st i).suites[k]?).map (·.parent) =
      (st.suites[k]?).map (·.parent)) := by
  refine ⟨rfl, ?_, ?_⟩
  · simpa [markAncestorsAndSelfOnly] using
      markFrom_length st.suites.length st.suites i
  · intro k
    exact parent_map_of_eraseOnly
      (by simpa [markAncestorsAndSelfOnly] using
        markFrom_eraseOnly st.suites.length st.suites i k)

/-- `createState` satisfies the invariant. -/
theorem createState_stInv : StInv createState := by
  refine ⟨by simp [createState], by simp [createState, createSuite], ?_⟩
  intro j t p hj hp
  have hj0 : j = 0 := by
    rcases List.getElem?_eq_some.mp hj with ⟨hh, _⟩
    simp [createState] at hh
    omega
  subst hj0
  simp [createState, createSuite] at hj
  rw [← hj] at hp
  cases hp

/-- `addTest` preserves the invariant and changes neither the arena size
nor the cursor. -/
theorem addTest_stInv (st : InternalState) (name : String) (fn : Action)
    (only skip : Bool) (h : StInv st) :
    StInv (addTest st name fn only skip) ∧
    (addTest st name fn only skip).suites.length = st.suites.length ∧
    (addTest st name fn only skip).currentSuite = st.currentSuite := by
  rw [addTest]
  set st1 : InternalState := { st with tests := st.tests ++
    [{ createTest name fn st.currentSuite with only := only, skip := skip }] }
    with hst1
  have h1 : StInv st1 := by
    exact stInv_of_parent_map rfl rfl (fun k => rfl) h
  set st2 : InternalState := if only then markAncestorsAndSelfOnly st1
    ({ createTest name fn st.currentSuite with
      only := only, skip := skip } : TestRec).suite else st1 with hst2
  have h2 : StInv st2 ∧ st2.suites.length = st1.suites.length ∧
      st2.currentSuite = st1.currentSuite := by
    rw [hst2]
    by_cases ho : only = true
    · obtain ⟨hc, hl, hm⟩ := mark_state_facts st1
        ({ createTest name fn st.currentSuite with
          only := only, skip := skip } : TestRec).suite
      simp only [ho, if_true]
      exact ⟨stInv_of_parent_map hc hl hm h1, hl, hc⟩
    · simp only [ho, if_false]
      exact ⟨h1, rfl, rfl⟩
  refine ⟨?_, ?_, ?_⟩
  · refine @stInv_of_parent_map st2 _ rfl ?_ ?_ h2.1
    · simpa using updateSuite_length st2.suites st2.currentSuite _
    · intro k
      simp only []
      rw [updateSuite_getElem?]
      by_cases hk : st2.currentSuite = k
      · rw [if_pos hk]
        cases hg : st2.suites[k]? with
        | none => rfl
        | some q => rfl
      · rw [if_neg hk]
  · have := updateSuite_length st2.suites st2.currentSuite
      (fun s => { s with contents := s.contents ++
        [Entry.testRef st.tests.length] })
    simpa [this] using h2.2.1
  · simpa using h2.2.2

/-- Updating one suite through a parent-preserving function keeps the
invariant (the arena size and cursor are unchanged by definition). -/
theorem updateSuite_state_stInv {st : InternalState} (i : Nat)
    (f : SuiteRec → SuiteRec) (hf : ∀ s, (f s).parent = s.parent)
    (h : StInv st) :
    StInv { st with suites := updateSuite st.suites i f } := by
  have hlen : ({ st with suites := updateSuite st.suites i f } :
      InternalState).suites.length = st.suites.length :=
    updateSuite_length st.suites i f
  have hpar : ∀ k : Nat, (({ st with suites := updateSuite st.suites i f } :
      InternalState).suites[k]?).map (·.parent) =
      (st.suites[k]?).map (·.parent) := by
    intro k
    show ((updateSuite st.suites i f)[k]?).map (·.parent) = _
    rw [updateSuite_getElem?]
    by_cases hk : i = k
    · rw [if_pos hk]
      cases hg : st.suites[k]? with
      | none => rfl
      | some q => simp [hf]
    · rw [if_neg hk]
  exact @stInv_of_parent_map st _ rfl hlen hpar h

/-- The session state passed to the `describe` body: the new suite is
created, attached and marked, and the cursor points at it. -/
def addSuitePre (st : InternalState) (name : String) (only skip : Bool) :
    InternalState :=
  let newId := st.suites.length
  let s : SuiteRec := { createSuite with
                        name := some name, parent := some st.currentSuite,
                        skip := skip }
  let st1 := { st with suites := st.suites ++ [s] }
  let st2 := if only then markAncestorsAndSelfOnly st1 newId else st1
  let pushS := fun (q : SuiteRec) =>
    { q with contents := q.contents ++ [Entry.suiteRef newId] }
  let st3 := { st2 with suites := updateSuite st2.suites st.currentSuite pushS }
  { st3 with currentSuite := newId }

/-- `addSuite` is: build the pre-state, run the body on it, restore the
cursor. -/
theorem addSuite_eq (st : InternalState) (name : String) (body : DeclList)
    (only skip : Bool) :
    addSuite st name body only skip =
      { runDecls (addSuitePre st name only skip) body with
        currentSuite := st.currentSuite } := by
  rw [addSuite]
  rfl

/-- The pre-state of a `describe` body satisfies the invariant, its cursor
is the new suite's index, and the arena has grown by one. -/
theorem addSuitePre_facts (st : InternalState) (name : String)
    (only skip : Bool) (h : StInv st) :
    StInv (addSuitePre st name only skip) ∧
    (addSuitePre st name only skip).currentSuite = st.suites.length ∧
    (addSuitePre st name only skip).suites.length = st.suites.length + 1 := by
  obtain ⟨hcur, hroot, hpd⟩ := h
  rw [addSuitePre]
  set newS : SuiteRec :=
    { createSuite with name := some name, parent := some st.currentSuite, skip := skip }
    with hnewS
  set st1 : InternalState := { st with suites := st.suites ++ [newS] } with hst1
  have h1 : StInv st1 := by
    refine ⟨?_, ?_, parentsDec_append hpd rfl hcur⟩
    · simp only [hst1, List.length_append, List.length_singleton]
      omega
    · rw [hst1]
      simp only []
      rw [List.getElem?_append_left (by omega : 0 < st.suites.length)]
      exact hroot
  set st2 : InternalState := if only then
      markAncestorsAndSelfOnly st1 st.suites.length else st1 with hst2
  have h2 : StInv st2 ∧ st2.suites.length = st1.suites.length ∧
      st2.currentSuite = st1.currentSuite := by
    rw [hst2]
    by_cases ho : only = true
    · simp only [ho, if_true]
      obtain ⟨hc, hl, hm⟩ := mark_state_facts st1 st.suites.length
      exact ⟨stInv_of_parent_map hc hl hm h1, hl, hc⟩
    · simp only [ho, if_false]
      exact ⟨h1, rfl, rfl⟩
  set pushFn : SuiteRec → SuiteRec :=
    fun q => { q with contents := q.contents ++ [Entry.suiteRef st.suites.length] }
    with hpush
  have h3 : StInv { st2 with suites := updateSuite st2.suites st.currentSuite pushFn } :=
    updateSuite_state_stInv st.currentSuite pushFn (fun s => rfl) h2.1
  have hlen3 : (updateSuite st2.suites st.currentSuite pushFn).length =
      st.suites.length + 1 := by
    rw [updateSuite_length, h2.2.1, hst1]
    simp
  refine ⟨⟨?_, h3.2.1, h3.2.2⟩, rfl, ?_⟩
  · show st.suites.length <
      (updateSuite st2.suites st.currentSuite pushFn).length
    rw [hlen3]
    omega
  · show (updateSuite st2.suites st.currentSuite pushFn).length =
      st.suites.length + 1
    exact hlen3

mutual

/-- `addSuite` preserves the invariant and never shrinks the arena. -/
theorem addSuite_stInv (st : InternalState) (name : String) (body : DeclList)
    (only skip : Bool) (h : StInv st) :
    StInv (addSuite st name body only skip) ∧
    st.suites.length ≤ (addSuite st name body only skip).suites.length := by
  rw [addSuite_eq]
  obtain ⟨hpre, hprecur, hprelen⟩ := addSuitePre_facts st name only skip h
  obtain ⟨hrun, hlen⟩ :=
    runDecls_stInv (addSuitePre st name only skip) body hpre
  have hge : st.suites.length + 1 ≤
      (runDecls (addSuitePre st name only skip) body).suites.length := by
    rw [← hprelen]
    exact hlen
  refine ⟨⟨?_, hrun.2.1, hrun.2.2⟩, ?_⟩
  · have hc := h.1
    simp only []
    omega
  · simp only []
    omega
termination_by (sizeOf body, 1)

/-- Every declaration call preserves the invariant and never shrinks the
arena. -/
theorem runDecl_stInv (st : InternalState) (d : Decl) (h : StInv st) :
    StInv (runDecl st d) ∧
    st.suites.length ≤ (runDecl st d).suites.length := by
  cases d with
  | describeD name only skip body =>
    rw [runDecl]
    exact addSuite_stInv st name body only skip h
  | testD name fn only skip =>
    rw [runDecl]
    obtain ⟨h1, h2, _⟩ := addTest_stInv st name fn only skip h
    exact ⟨h1, le_of_eq h2.symm⟩
  | beforeD a =>
    rw [runDecl]
    refine ⟨updateSuite_state_stInv _ _ (fun s => rfl) h, ?_⟩
    simp [updateSuite_length]
  | afterD a =>
    rw [runDecl]
    refine ⟨updateSuite_state_stInv _ _ (fun s => rfl) h, ?_⟩
    simp [updateSuite_length]
  | beforeEachD a =>
    rw [runDecl]
    refine ⟨updateSuite_state_stInv _ _ (fun s => rfl) h, ?_⟩
    simp [updateSuite_length]
  | afterEachD a =>
    rw [runDecl]
    refine ⟨updateSuite_state_stInv _ _ (fun s => rfl) h, ?_⟩
    simp [updateSuite_length]
termination_by (sizeOf d, 2)

/-- Running a declaration sequence preserves the invariant and never
shrinks the arena. -/
theorem runDecls_stInv (st : InternalState) (ds : DeclList) (h : StInv st) :
    StInv (runDecls st ds) ∧
    st.suites.length ≤ (runDecls st ds).suites.length := by
  cases ds with
  | nil =>
    rw [runDecls]
    exact ⟨h, le_refl _⟩
  | cons d rest =>
    rw [runDecls]
    obtain ⟨h1, hl1⟩ := runDecl_stInv st d h
    obtain ⟨h2, hl2⟩ := runDecls_stInv (runDecl st d) rest h1
    exact ⟨h2, le_trans hl1 hl2⟩
termination_by (sizeOf ds, 0)

end

/-- Claim C10: in every state built through `createState`, `addSuite` and
`addTest`, the root suite has no parent and every suite's parent index is
strictly smaller than its own index (so the parent chain is finite and
acyclic); consequently, for every valid start index the parent-chain walk
of `markAncestorsAndSelfOnly` stabilises after at most `i + 1` steps — any
fuel of at least `i + 1` computes the same result, which is exactly the
termination of the source's unbounded `while` loop. -/
theorem C10_parent_chain_terminates (ds : DeclList) :
    ((buildState ds).suites[0]?).map (·.parent) = some none ∧
    ParentsDec (buildState ds).suites ∧
    (∀ i : Nat, i < (buildState ds).suites.length → ∀ f : Nat, i + 1 ≤ f →
      markFrom (buildState ds).suites f i =
        markFrom (buildState ds).suites (i + 1) i) := by
  obtain ⟨h1, h2, h3⟩ : StInv (buildState ds) :=
    (runDecls_stInv createState ds createState_stInv).1
  exact ⟨h2, h3, fun i hi f hf =>
    markFrom_stable i _ h3 hi f (i + 1) hf (le_refl _)⟩

/-- A one-file program declaring a single empty suite. -/
def c10Decls : DeclList :=
  .cons (.describeD "A" false false .nil) .nil

/-- Witness for C10 at a concrete input: the walk from the suite created by
`describe("A", ...)` (index 1) stabilises at fuel 2. -/
theorem C10_parent_chain_terminates_witness :
    (1 < (buildState c10Decls).suites.length ∧ 1 + 1 ≤ 7) ∧
    markFrom (buildState c10Decls).suites 7 1 =
      markFrom (buildState c10Decls).suites (1 + 1) 1 :=
  ⟨⟨by simp [buildState, c10Decls, runDecls, runDecl, addSuite, addSuitePre,
      createState, createSuite, markAncestorsAndSelfOnly, markFrom,
      updateSuite], by decide⟩,
    (C10_parent_chain_terminates c10Decls).2.2 1
      (by simp [buildState, c10Decls, runDecls, runDecl, addSuite, addSuitePre,
        createState, createSuite, markAncestorsAndSelfOnly, markFrom,
        updateSuite]) 7 (by decide)⟩

/-! ## Frame properties of the declaration API (claim C7) -/

/-- The identity-giving fields of a suite: its display name and its parent,
both fixed at creation. -/
def SuiteRec.idFields (s : SuiteRec) : Option String × Option Nat :=
  (s.name, s.parent)

/-- Any projection unaffected by the `only` flag transfers along
`eraseOnly` agreement. -/
theorem map_proj_of_eraseOnly {β : Type} (g : SuiteRec → β)
    (hg : ∀ s, g (SuiteRec.eraseOnly s) = g s) {o1 o2 : Option SuiteRec}
    (h : o1.map SuiteRec.eraseOnly = o2.map SuiteRec.eraseOnly) :
    o1.map g = o2.map g := by
  cases o1 with
  | none =>
    cases o2 with
    | none => rfl
    | some u => simp at h
  | some t =>
    cases o2 with
    | none => simp at h
    | some u =>
      simp only [Option.map_some'] at h ⊢
      have he : SuiteRec.eraseOnly t = SuiteRec.eraseOnly u :=
        Option.some_inj.mp h
      rw [← hg t, ← hg u, he]

/-- Marking preserves every suite's name and parent, pointwise. -/
theorem mark_idFields (st : InternalState) (i : Nat) (k : Nat) :
    ((markAncestorsAndSelfOnly st i).suites[k]?).map SuiteRec.idFields =
      (st.suites[k]?).map SuiteRec.idFields :=
  map_proj_of_eraseOnly SuiteRec.idFields (fun s => rfl)
    (by simpa [markAncestorsAndSelfOnly] using
      markFrom_eraseOnly st.suites.length st.suites i k)

/-- Marking preserves every suite's `contents`, pointwise. -/
theorem mark_contents (st : InternalState) (i : Nat) (k : Nat) :
    ((markAncestorsAndSelfOnly st i).suites[k]?).map (·.contents) =
      (st.suites[k]?).map (·.contents) :=
  map_proj_of_eraseOnly (·.contents) (fun s => rfl)
    (by simpa [markAncestorsAndSelfOnly] using
      markFrom_eraseOnly st.suites.length st.suites i k)

/-- Frame facts about the pre-state of a `describe` body: cursor at the new
suite, arena one longer, names and parents of existing suites unchanged,
existing suites other than the parent wholly unchanged up to `only`, the
new suite carrying the given name and the old cursor as parent, and the
parent suite's `contents` extended by exactly the new reference. -/
theorem addSuitePre_frame (st : InternalState) (name : String)
    (only skip : Bool) :
    (addSuitePre st name only skip).currentSuite = st.suites.length ∧
    (addSuitePre st name only skip).suites.length = st.suites.length + 1 ∧
    (∀ j : Nat, j < st.suites.length →
      ((addSuitePre st name only skip).suites[j]?).map SuiteRec.idFields =
        (st.suites[j]?).map SuiteRec.idFields) ∧
    (∀ j : Nat, j ≠ st.currentSuite → j < st.suites.length →
      ((addSuitePre st name only skip).suites[j]?).map SuiteRec.eraseOnly =
        (st.suites[j]?).map SuiteRec.eraseOnly) ∧
    ((addSuitePre st name only skip).suites[st.suites.length]?).map
      SuiteRec.idFields = some (some name, some st.currentSuite) ∧
    (st.currentSuite < st.suites.length →
      ((addSuitePre st name only skip).suites[st.currentSuite]?).map (·.contents) =
        (st.suites[st.currentSuite]?).map
          (fun s => s.contents ++ [Entry.suiteRef st.suites.length])) := by
  rw [addSuitePre]
  set newS : SuiteRec :=
    { createSuite with name := some name, parent := some st.currentSuite, skip := skip }
    with hnewS
  set st1 : InternalState := { st with suites := st.suites ++ [newS] } with hst1
  set st2 : InternalState := if only then
      markAncestorsAndSelfOnly st1 st.suites.length else st1 with hst2
  set pushFn : SuiteRec → SuiteRec :=
    fun q => { q with contents := q.contents ++ [Entry.suiteRef st.suites.length] }
    with hpush
  have hst1get : ∀ j : Nat, j < st.suites.length → st1.suites[j]? = st.suites[j]? := by
    intro j hj
    rw [hst1]
    simp only []
    exact List.getElem?_append_left hj
  have hst1new : st1.suites[st.suites.length]? = some newS := by
    rw [hst1]
    simp
  have h2er : ∀ k : Nat, (st2.suites[k]?).map SuiteRec.eraseOnly =
      (st1.suites[k]?).map SuiteRec.eraseOnly := by
    intro k
    rw [hst2]
    by_cases ho : only = true
    · simp only [ho, if_true]
      simpa [markAncestorsAndSelfOnly] using
        markFrom_eraseOnly st1.suites.length st1.suites st.suites.length k
    · simp [ho, hst1]
  have h2cur : st2.currentSuite = st.currentSuite := by
    rw [hst2]
    by_cases ho : only = true
    · simp [ho, markAncestorsAndSelfOnly]
    · simp [ho, hst1]
  have h2len : st2.suites.length = st.suites.length + 1 := by
    rw [hst2]
    by_cases ho : only = true
    · simp only [ho, if_true]
      rw [(mark_state_facts st1 st.suites.length).2.1, hst1]
      simp
    · simp [ho, hst1]
  refine ⟨rfl, ?_, ?_, ?_, ?_, ?_⟩
  · show (updateSuite st2.suites st.currentSuite pushFn).length =
      st.suites.length + 1
    rw [updateSuite_length, h2len]
  · intro j hj
    show ((updateSuite st2.suites st.currentSuite pushFn)[j]?).map
      SuiteRec.idFields = (st.suites[j]?).map SuiteRec.idFields
    rw [updateSuite_getElem?]
    have hid2 : (st2.suites[j]?).map SuiteRec.idFields =
        (st.suites[j]?).map SuiteRec.idFields := by
      rw [map_proj_of_eraseOnly SuiteRec.idFields (fun s => rfl) (h2er j),
        hst1get j hj]
    by_cases hk : st.currentSuite = j
    · rw [if_pos hk, ← hid2]
      cases hg : st2.suites[j]? with
      | none => rfl
      | some q => rfl
    · rw [if_neg hk]
      exact hid2
  · intro j hjc hj
    show ((updateSuite st2.suites st.currentSuite pushFn)[j]?).map
      SuiteRec.eraseOnly = (st.suites[j]?).map SuiteRec.eraseOnly
    rw [updateSuite_getElem?, if_neg (fun he => hjc he.symm), h2er j,
      hst1get j hj]
  · show ((updateSuite st2.suites st.currentSuite pushFn)[st.suites.length]?).map
      SuiteRec.idFields = some (some name, some st.currentSuite)
    rw [updateSuite_getElem?]
    have hid2 : (st2.suites[st.suites.length]?).map SuiteRec.idFields =
        some (some name, some st.currentSuite) := by
      rw [map_proj_of_eraseOnly SuiteRec.idFields (fun s => rfl)
        (h2er st.suites.length), hst1new]
      rfl
    by_cases hk : st.currentSuite = st.suites.length
    · rw [if_pos hk, ← hid2]
      cases hg : st2.suites[st.suites.length]? with
      | none => rfl
      | some q => rfl
    · rw [if_neg hk]
      exact hid2
  · intro hcur
    show ((updateSuite st2.suites st.currentSuite pushFn)[st.currentSuite]?).map
      (·.contents) = (st.suites[st.currentSuite]?).map
        (fun s => s.contents ++ [Entry.suiteRef st.suites.length])
    rw [updateSuite_getElem?, if_pos rfl]
    have hco2 : (st2.suites[st.currentSuite]?).map (·.contents) =
        (st.suites[st.currentSuite]?).map (·.contents) := by
      rw [map_proj_of_eraseOnly (·.contents) (fun s => rfl)
        (h2er st.currentSuite), hst1get st.currentSuite hcur]
    cases hg : st2.suites[st.currentSuite]? with
    | none =>
      rw [hg] at hco2
      cases hs : st.suites[st.currentSuite]? with
      | none => rfl
      | some q => rw [hs] at hco2; cases hco2
    | some q =>
      rw [hg] at hco2
      cases hs : st.suites[st.currentSuite]? with
      | none => rw [hs] at hco2; cases hco2
      | some r =>
        rw [hs] at hco2
        simp only [Option.map_some'] at hco2 ⊢
        have : q.contents = r.contents := by simpa using hco2
        simp [hpush, this]

/-- Frame facts for updating the current suite through a function that
keeps name and parent: cursor and size unchanged, names/parents unchanged
everywhere, everything but `only` unchanged away from the cursor. -/
theorem updateSuite_state_frame (st : InternalState) (f : SuiteRec → SuiteRec)
    (hfid : ∀ s, SuiteRec.idFields (f s) = SuiteRec.idFields s) :
    ({ st with suites := updateSuite st.suites st.currentSuite f } :
      InternalState).currentSuite = st.currentSuite ∧
    ({ st with suites := updateSuite st.suites st.currentSuite f } :
      InternalState).suites.length = st.suites.length ∧
    (∀ j : Nat, (({ st with suites := updateSuite st.suites st.currentSuite f } :
      InternalState).suites[j]?).map SuiteRec.idFields =
        (st.suites[j]?).map SuiteRec.idFields) ∧
    (∀ j : Nat, j ≠ st.currentSuite →
      (({ st with suites := updateSuite st.suites st.currentSuite f } :
        InternalState).suites[j]?).map SuiteRec.eraseOnly =
        (st.suites[j]?).map SuiteRec.eraseOnly) := by
  refine ⟨rfl, updateSuite_length st.suites st.currentSuite f, ?_, ?_⟩
  · intro j
    show ((updateSuite st.suites st.currentSuite f)[j]?).map SuiteRec.idFields =
      (st.suites[j]?).map SuiteRec.idFields
    rw [updateSuite_getElem?]
    by_cases hk : st.currentSuite = j
    · rw [if_pos hk]
      cases hg : st.suites[j]? with
      | none => rfl
      | some q => simp [hfid]
    · rw [if_neg hk]
  · intro j hj
    show ((updateSuite st.suites st.currentSuite f)[j]?).map SuiteRec.eraseOnly =
      (st.suites[j]?).map SuiteRec.eraseOnly
    rw [updateSuite_getElem?, if_neg (fun he => hj he.symm)]

/-- Frame facts for `addTest`: cursor and arena size unchanged,
names/parents unchanged everywhere, and every suite other than the owning
one unchanged up to `only`. -/
theorem addTest_frame (st : InternalState) (name : String) (fn : Action)
    (only skip : Bool) :
    (addTest st name fn only skip).currentSuite = st.currentSuite ∧
    (addTest st name fn only skip).suites.length = st.suites.length ∧
    (∀ j : Nat, ((addTest st name fn only skip).suites[j]?).map
      SuiteRec.idFields = (st.suites[j]?).map SuiteRec.idFields) ∧
    (∀ j : Nat, j ≠ st.currentSuite →
      ((addTest st name fn only skip).suites[j]?).map SuiteRec.eraseOnly =
        (st.suites[j]?).map SuiteRec.eraseOnly) := by
  rw [addTest]
  set st1 : InternalState := { st with tests := st.tests ++
    [{ createTest name fn st.currentSuite with only := only, skip := skip }] }
    with hst1
  set st2 : InternalState := if only then markAncestorsAndSelfOnly st1
    ({ createTest name fn st.currentSuite with
      only := only, skip := skip } : TestRec).suite else st1 with hst2
  have h2er : ∀ k : Nat, (st2.suites[k]?).map SuiteRec.eraseOnly =
      (st.suites[k]?).map SuiteRec.eraseOnly := by
    intro k
    rw [hst2]
    by_cases ho : only = true
    · simp only [ho, if_true]
      simpa [markAncestorsAndSelfOnly] using
        markFrom_eraseOnly st1.suites.length st1.suites _ k
    · simp [ho, hst1]
  have h2cur : st2.currentSuite = st.currentSuite := by
    rw [hst2]
    by_cases ho : only = true
    · simp [ho, markAncestorsAndSelfOnly]
    · simp [ho, hst1]
  have h2len : st2.suites.length = st.suites.length := by
    rw [hst2]
    by_cases ho : only = true
    · simp only [ho, if_true]
      rw [(mark_state_facts st1 _).2.1]
    · simp [ho, hst1]
  refine ⟨?_, ?_, ?_, ?_⟩
  · show st2.currentSuite = st.currentSuite
    exact h2cur
  · show (updateSuite st2.suites st2.currentSuite _).length = st.suites.length
    rw [updateSuite_length, h2len]
  · intro j
    show ((updateSuite st2.suites st2.currentSuite _)[j]?).map
      SuiteRec.idFields = (st.suites[j]?).map SuiteRec.idFields
    rw [updateSuite_getElem?]
    have hid2 : (st2.suites[j]?).map SuiteRec.idFields =
        (st.suites[j]?).map SuiteRec.idFields :=
      map_proj_of_eraseOnly SuiteRec.idFields (fun s => rfl) (h2er j)
    by_cases hk : st2.currentSuite = j
    · rw [if_pos hk, ← hid2]
      cases hg : st2.suites[j]? with
      | none => rfl
      | some q => rfl
    · rw [if_neg hk]
      exact hid2
  · intro j hj
    show ((updateSuite st2.suites st2.currentSuite _)[j]?).map
      SuiteRec.eraseOnly = (st.suites[j]?).map SuiteRec.eraseOnly
    rw [updateSuite_getElem?,
      if_neg (fun he => hj (by rw [← he, h2cur]))]
    exact h2er j

mutual

/-- Frame facts for `addSuite`: the cursor is restored, the arena never
shrinks, names and parents of pre-existing suites are unchanged, and every
pre-existing suite strictly below the cursor is unchanged up to `only`. -/
theorem addSuite_frame (st : InternalState) (name : String) (body : DeclList)
    (only skip : Bool) :
    (addSuite st name body only skip).currentSuite = st.currentSuite ∧
    st.suites.length ≤ (addSuite st name body only skip).suites.length ∧
    (∀ j : Nat, j < st.suites.length →
      ((addSuite st name body only skip).suites[j]?).map SuiteRec.idFields =
        (st.suites[j]?).map SuiteRec.idFields) ∧
    (∀ j : Nat, j < st.currentSuite → j < st.suites.length →
      ((addSuite st name body only skip).suites[j]?).map SuiteRec.eraseOnly =
        (st.suites[j]?).map SuiteRec.eraseOnly) := by
  rw [addSuite_eq]
  obtain ⟨hpcur, hplen, hpid, hper, _, _⟩ := addSuitePre_frame st name only skip
  obtain ⟨hrcur, hrlen, hrid, hrer⟩ :=
    runDecls_frame (addSuitePre st name only skip) body
  refine ⟨rfl, ?_, ?_, ?_⟩
  · show st.suites.length ≤
      (runDecls (addSuitePre st name only skip) body).suites.length
    omega
  · intro j hj
    show ((runDecls (addSuitePre st name only skip) body).suites[j]?).map
      SuiteRec.idFields = (st.suites[j]?).map SuiteRec.idFields
    rw [hrid j (by omega), hpid j hj]
  · intro j hjc hjl
    show ((runDecls (addSuitePre st name only skip) body).suites[j]?).map
      SuiteRec.eraseOnly = (st.suites[j]?).map SuiteRec.eraseOnly
    rw [hrer j (by rw [hpcur]; omega) (by omega),
      hper j (by omega) hjl]
termination_by (sizeOf body, 1)

/-- Frame facts for one declaration call. -/
theorem runDecl_frame (st : InternalState) (d : Decl) :
    (runDecl st d).currentSuite = st.currentSuite ∧
    st.suites.length ≤ (runDecl st d).suites.length ∧
    (∀ j : Nat, j < st.suites.length →
      ((runDecl st d).suites[j]?).map SuiteRec.idFields =
        (st.suites[j]?).map SuiteRec.idFields) ∧
    (∀ j : Nat, j < st.currentSuite → j < st.suites.length →
      ((runDecl st d).suites[j]?).map SuiteRec.eraseOnly =
        (st.suites[j]?).map SuiteRec.eraseOnly) := by
  cases d with
  | describeD name only skip body =>
    rw [runDecl]
    exact addSuite_frame st name body only skip
  | testD name fn only skip =>
    rw [runDecl]
    obtain ⟨h1, h2, h3, h4⟩ := addTest_frame st name fn only skip
    exact ⟨h1, le_of_eq h2.symm, fun j _ => h3 j,
      fun j hj _ => h4 j (by omega)⟩
  | beforeD a =>
    rw [runDecl]
    obtain ⟨h1, h2, h3, h4⟩ := updateSuite_state_frame st
      (fun s => { s with before := s.before ++ [a] }) (fun s => rfl)
    exact ⟨h1, le_of_eq h2.symm, fun j _ => h3 j,
      fun j hj _ => h4 j (by omega)⟩
  | afterD a =>
    rw [runDecl]
    obtain ⟨h1, h2, h3, h4⟩ := updateSuite_state_frame st
      (fun s => { s with after := s.after ++ [a] }) (fun s => rfl)
    exact ⟨h1, le_of_eq h2.symm, fun j _ => h3 j,
      fun j hj _ => h4 j (by omega)⟩
  | beforeEachD a =>
    rw [runDecl]
    obtain ⟨h1, h2, h3, h4⟩ := updateSuite_state_frame st
      (fun s => { s with beforeEachH := s.beforeEachH ++ [a] }) (fun s => rfl)
    exact ⟨h1, le_of_eq h2.symm, fun j _ => h3 j,
      fun j hj _ => h4 j (by omega)⟩
  | afterEachD a =>
    rw [runDecl]
    obtain ⟨h1, h2, h3, h4⟩ := updateSuite_state_frame st
      (fun s => { s with afterEachH := s.afterEachH ++ [a] }) (fun s => rfl)
    exact ⟨h1, le_of_eq h2.symm, fun j _ => h3 j,
      fun j hj _ => h4 j (by omega)⟩
termination_by (sizeOf d, 2)

/-- Frame facts for a declaration sequence. -/
theorem runDecls_frame (st : InternalState) (ds : DeclList) :
    (runDecls st ds).currentSuite = st.currentSuite ∧
    st.suites.length ≤ (runDecls st ds).suites.length ∧
    (∀ j : Nat, j < st.suites.length →
      ((runDecls st ds).suites[j]?).map SuiteRec.idFields =
        (st.suites[j]?).map SuiteRec.idFields) ∧
    (∀ j : Nat, j < st.currentSuite → j < st.suites.length →
      ((runDecls st ds).suites[j]?).map SuiteRec.eraseOnly =
        (st.suites[j]?).map SuiteRec.eraseOnly) := by
  cases ds with
  | nil =>
    rw [runDecls]
    exact ⟨rfl, le_refl _, fun j _ => rfl, fun j _ _ => rfl⟩
  | cons d rest =>
    rw [runDecls]
    obtain ⟨h1, h2, h3, h4⟩ := runDecl_frame st d
    obtain ⟨g1, g2, g3, g4⟩ := runDecls_frame (runDecl st d) rest
    refine ⟨by rw [g1, h1], le_trans h2 g2, ?_, ?_⟩
    · intro j hj
      rw [g3 j (by omega), h3 j hj]
    · intro j hjc hjl
      rw [g4 j (by rw [h1]; omega) (by omega), h4 j hjc hjl]
termination_by (sizeOf ds, 0)

end

/-- Claim C7: `describe(name, fn)` via `addSuite`, called on a state whose
cursor is a valid suite index, (1) restores `currentSuite` to its previous
value after the call; (2) is exactly "build the pre-state, run the body
synchronously on it, restore the cursor", where (3) the pre-state's cursor
is the new suite's index — so the body's declarations attach to the new
suite; (4) creates the new suite at the next index with the given name and
the previous current suite as `parent`; and (5) appends exactly the new
suite's reference to the previous current suite's `contents`. -/
theorem C7_addSuite_describe (st : InternalState) (name : String)
    (body : DeclList) (only skip : Bool)
    (hcur : st.currentSuite < st.suites.length) :
    (addSuite st name body only skip).currentSuite = st.currentSuite ∧
    addSuite st name body only skip =
      { runDecls (addSuitePre st name only skip) body with
        currentSuite := st.currentSuite } ∧
    (addSuitePre st name only skip).currentSuite = st.suites.length ∧
    ((addSuite st name body only skip).suites[st.suites.length]?).map
      SuiteRec.idFields = some (some name, some st.currentSuite) ∧
    ((addSuite st name body only skip).suites[st.currentSuite]?).map
      (·.contents) = (st.suites[st.currentSuite]?).map
        (fun s => s.contents ++ [Entry.suiteRef st.suites.length]) := by
  obtain ⟨hpcur, hplen, hpid, hper, hpnew, hpcont⟩ :=
    addSuitePre_frame st name only skip
  obtain ⟨hrcur, hrlen, hrid, hrer⟩ :=
    runDecls_frame (addSuitePre st name only skip) body
  refine ⟨by rw [addSuite_eq], addSuite_eq st name body only skip, hpcur,
    ?_, ?_⟩
  · rw [addSuite_eq]
    show (((runDecls (addSuitePre st name only skip) body).suites)[st.suites.length]?).map
      SuiteRec.idFields = some (some name, some st.currentSuite)
    rw [hrid st.suites.length (by omega), hpnew]
  · rw [addSuite_eq]
    show (((runDecls (addSuitePre st name only skip) body).suites)[st.currentSuite]?).map
      (·.contents) = (st.suites[st.currentSuite]?).map
        (fun s => s.contents ++ [Entry.suiteRef st.suites.length])
    have her := hrer st.currentSuite (by rw [hpcur]; omega) (by omega)
    rw [map_proj_of_eraseOnly (·.contents) (fun s => rfl) her, hpcont hcur]

/-- The body used by the C7 witness: a single test declaration. -/
def c7Body : DeclList :=
  .cons (.testD "t" ⟨0, true⟩ false false) .nil

/-- Witness for C7 at a concrete input: `describe("A", body)` on a fresh
session state. -/
theorem C7_addSuite_describe_witness :
    createState.currentSuite < createState.suites.length ∧
    ((addSuite createState "A" c7Body false false).currentSuite =
      createState.currentSuite ∧
    addSuite createState "A" c7Body false false =
      { runDecls (addSuitePre createState "A" false false) c7Body with
        currentSuite := createState.currentSuite } ∧
    (addSuitePre createState "A" false false).currentSuite =
      createState.suites.length ∧
    ((addSuite createState "A" c7Body false false).suites[createState.suites.length]?).map
      SuiteRec.idFields = some (some "A", some createState.currentSuite) ∧
    ((addSuite createState "A" c7Body false false).suites[createState.currentSuite]?).map
      (·.contents) = (createState.suites[createState.currentSuite]?).map
        (fun s => s.contents ++ [Entry.suiteRef createState.suites.length])) :=
  ⟨by decide, C7_addSuite_describe createState "A" c7Body false false (by decide)⟩

/-! ## Only-marking inside a skip-marked suite (claim C9) -/

/-- The children of a suite node (empty for a test node). -/
def Node.contentsOf : Node → NodeList
  | .test _ _ _ _ => .nil
  | .suite _ _ _ cs _ _ _ _ => cs

/-- A file declaring a plain test `u`, then `describe.skip(sN)` whose body
declares `test.only(tN)`. Suite index 1 is the skip-marked suite. -/
def c9prog1 (u sN tN : String) (ua ta : Action) : DeclList :=
  .cons (.testD u ua false false)
    (.cons (.describeD sN false true
      (.cons (.testD tN ta true false) .nil)) .nil)

/-- A file declaring a plain test `u`, then `describe.skip(sN)` whose body
declares `describe.only(dN)` containing test `tN`. Suite index 1 is the
skip-marked suite, index 2 the only-marked one. -/
def c9prog2 (u sN dN tN : String) (ua ta : Action) : DeclList :=
  .cons (.testD u ua false false)
    (.cons (.describeD sN false true
      (.cons (.describeD dN true false
        (.cons (.testD tN ta false false) .nil)) .nil)) .nil)

/-- Claim C9: declaring `test.only` (first program) or `describe.only`
(second program) inside a skip-marked suite still marks the skip-marked
suite and all its ancestors `only` (here: the skip suite at index 1 and the
root at index 0; in the second program also the nested suite at index 2).
Consequently the skip suite's sibling group has `contentsHasOnly = true`,
so the sibling test `u` — not marked `only` — is excluded, while the
skip-marked subtree itself is also excluded: the whole run executes no
action and emits no event. -/
theorem C9_only_inside_skip (u sN dN tN : String) (ua ta : Action) :
    ((buildState (c9prog1 u sN tN ua ta)).suites[0]?).map (·.only) =
      some true ∧
    ((buildState (c9prog1 u sN tN ua ta)).suites[1]?).map (·.only) =
      some true ∧
    ((buildState (c9prog1 u sN tN ua ta)).suites[1]?).map (·.skip) =
      some true ∧
    (Node.contentsOf (toTree (buildState (c9prog1 u sN tN ua ta)))).hasOnly =
      true ∧
    runAllTests (toTree (buildState (c9prog1 u sN tN ua ta))) = ([], none) ∧
    ((buildState (c9prog2 u sN dN tN ua ta)).suites[0]?).map (·.only) =
      some true ∧
    ((buildState (c9prog2 u sN dN tN ua ta)).suites[1]?).map (·.only) =
      some true ∧
    ((buildState (c9prog2 u sN dN tN ua ta)).suites[1]?).map (·.skip) =
      some true ∧
    ((buildState (c9prog2 u sN dN tN ua ta)).suites[2]?).map (·.only) =
      some true ∧
    (Node.contentsOf (toTree (buildState (c9prog2 u sN dN tN ua ta)))).hasOnly =
      true ∧
    runAllTests (toTree (buildState (c9prog2 u sN dN tN ua ta))) =
      ([], none) := by
  refine ⟨?_, ?_, ?_, ?_, ?_, ?_, ?_, ?_, ?_, ?_, ?_⟩ <;>
    simp [c9prog1, c9prog2, buildState, runDecls, runDecl, addSuite,
      addSuitePre, addTest, createState, createSuite, createTest,
      markAncestorsAndSelfOnly, markFrom, updateSuite, toTree, toNodes,
      runAllTests, runSuite, runContents, runBefore, runActions,
      NodeList.hasOnly, Node.onlyFlag, Node.skipFlag, Node.contentsOf]

end SMR
